import Mathlib

/-!
# Verification of the PDF-to-Markdown text pipeline

Shallow embedding of `src/pdf_to_markdown_app.py`.  Strings are modelled as
`String` / `List Char`; the Python regular-expression passes are embedded as
deterministic scanners that reproduce `re.sub` / `re.split` / `re.match`
semantics for the concrete patterns used by the program (all of which are
backtracking-free because their character classes are pairwise disjoint).
The external libraries (pdfplumber, pdf2image, pytesseract, wordninja) are
modelled as parameters: page content, OCR results and the word segmenter are
inputs of the embedded functions, exactly as they are inputs of the program.
-/

namespace PdfApp

/-- Python `str.isspace` / regex `\s` membership, restricted to the
whitespace characters this development manipulates (ASCII whitespace plus
the common Unicode whitespace code points that Python treats as `\s`). -/
def isPySpace (c : Char) : Bool :=
  c = ' ' || c = '\t' || c = '\n' || c = '\r' || c = '\x0b' || c = '\x0c' ||
  c = '\x1c' || c = '\x1d' || c = '\x1e' || c = '\x1f' || c = '\x85' ||
  c = '\xa0' || c = ' ' || c = ' '

/-- Line boundaries recognised by Python `str.splitlines`. -/
def isLineBoundary (c : Char) : Bool :=
  c = '\n' || c = '\r' || c = '\x0b' || c = '\x0c' ||
  c = '\x1c' || c = '\x1d' || c = '\x1e' || c = '\x85' ||
  c = ' ' || c = ' '

/-- Regex `\w` (ASCII reading): letters, digits, underscore. -/
def isW (c : Char) : Bool := c.isAlphanum || c = '_'

/-- Regex `[A-Z]`. -/
def isUpperAZ (c : Char) : Bool := 'A' ≤ c && c ≤ 'Z'

/-- Regex `[a-z]`. -/
def isLowerAZ (c : Char) : Bool := 'a' ≤ c && c ≤ 'z'

def splitlinesGo (acc : List Char) : List Char → List (List Char)
  | [] => if acc = [] then [] else [acc.reverse]
  | '\r' :: '\n' :: rest => acc.reverse :: splitlinesGo [] rest
  | c :: rest =>
    if isLineBoundary c then acc.reverse :: splitlinesGo [] rest
    else splitlinesGo (c :: acc) rest

/-- Python `str.splitlines()`. -/
def pySplitlines (l : List Char) : List (List Char) := splitlinesGo [] l

/-- Worker for no-argument `str.split`: `acc` holds the current word, reversed. -/
def splitWsGo (acc : List Char) : List Char → List (List Char)
  | [] => if acc = [] then [] else [acc.reverse]
  | c :: rest =>
    if isPySpace c then
      if acc = [] then splitWsGo [] rest else acc.reverse :: splitWsGo [] rest
    else splitWsGo (c :: acc) rest

/-- Python `str.split()` — split on whitespace runs, dropping empties. -/
def pySplit (l : List Char) : List (List Char) := splitWsGo [] l

/-- Python `str.strip()`. -/
def pyStrip (l : List Char) : List Char :=
  (((l.dropWhile isPySpace).reverse).dropWhile isPySpace).reverse

/-- Python `sep.join(pieces)` on character lists. -/
def joinWith (sep : List Char) : List (List Char) → List Char
  | [] => []
  | x :: xs =>
    match xs with
    | [] => x
    | _ :: _ => x ++ sep ++ joinWith sep xs

/-- State after the four year digits: accept exactly `\s*$`. -/
def hmYearEnd : List Char → Bool
  | [] => true
  | c :: r => isPySpace c && hmYearEnd r

/-- State expecting `\d{4}\s*$`. -/
def hmYear : List Char → Bool
  | a :: b :: c :: d :: r =>
    a.isDigit && b.isDigit && c.isDigit && d.isDigit && hmYearEnd r
  | _ => false

/-- State inside `\s+`, at least one space consumed: more `\s`, then year. -/
def hmAfterWs1 : List Char → Bool
  | [] => false
  | c :: r => if isPySpace c then hmAfterWs1 r else hmYear (c :: r)

/-- State inside the second `\d+`, at least one digit consumed. -/
def hmAfterD2 : List Char → Bool
  | [] => false
  | c :: r =>
    if c.isDigit then hmAfterD2 r
    else if isPySpace c then hmAfterWs1 r
    else false

/-- State inside the first `\d+`, at least one digit consumed: more digits
or the slash. -/

def hmAfterD1 : List Char → Bool
  | [] => false
  | c :: r =>
    if c.isDigit then hmAfterD1 r
    else if c = '/' then
      match r with
      | [] => false
      | c2 :: r2 => c2.isDigit && hmAfterD2 r2
    else false

/-- Start state: `^\s*` then the first digit. -/
def hmStart : List Char → Bool
  | [] => false
  | c :: r => if isPySpace c then hmStart r else c.isDigit && hmAfterD1 r

/-- Anchored matcher for `re.match(r'^\s*\d+/\d+\s+\d{4}\s*$', line)`.
All character classes of the pattern are pairwise disjoint, so the regex is
deterministic and this automaton is an exact embedding of it. -/

def headerMatch (l : List Char) : Bool := hmStart l

/-- `remove_page_headers` from the source: keep the lines that do not match
the header pattern and rejoin them with `"\n"`. -/

def removePageHeadersL (l : List Char) : List Char :=
  joinWith ['\n'] ((pySplitlines l).filter fun line => !headerMatch line)

/-- String-level `remove_page_headers`. -/
def remove_page_headers (s : String) : String :=
  ⟨removePageHeadersL s.data⟩

/-- The shape the specification ascribes to a removed line: optional
whitespace, digits, a slash, digits, whitespace, a 4-digit number, optional
whitespace, and nothing else. -/

def SpecHeaderLine (l : List Char) : Prop :=
  ∃ w1 d1 d2 w2 y w3 : List Char,
    l = w1 ++ d1 ++ ['/'] ++ d2 ++ w2 ++ y ++ w3 ∧
    (∀ c ∈ w1, isPySpace c = true) ∧
    d1 ≠ [] ∧ (∀ c ∈ d1, c.isDigit = true) ∧
    d2 ≠ [] ∧ (∀ c ∈ d2, c.isDigit = true) ∧
    w2 ≠ [] ∧ (∀ c ∈ w2, isPySpace c = true) ∧
    y.length = 4 ∧ (∀ c ∈ y, c.isDigit = true) ∧
    (∀ c ∈ w3, isPySpace c = true)

def hyphenMatchAt (l : List Char) : Option (List Char × List Char) :=
  let w1 := l.takeWhile isW
  if w1.isEmpty then none
  else
    match l.dropWhile isW with
    | c1 :: c2 :: r =>
      if c1 = '-' then
        if c2 = '\n' then
          let w2 := r.takeWhile isW
          if w2.isEmpty then none else some (w1 ++ w2, r.dropWhile isW)
        else none
      else none
    | _ => none

/-- Fuel-indexed `re.sub` scanner for the hyphen pattern. -/
def hyphenScanF : Nat → List Char → List Char
  | 0, l => l
  | _ + 1, [] => []
  | f + 1, c :: cs =>
    match hyphenMatchAt (c :: cs) with
    | some (repl, rest) => repl ++ hyphenScanF f rest
    | none => c :: hyphenScanF f cs

/-- The hyphenation-repair pass of `clean_extracted_text` (line 97 of the
source).  The fuel `l.length` always suffices. -/

def hyphenScan (l : List Char) : List Char := hyphenScanF l.length l

def periodStartsMatch (c : Char) : List Char → Bool
  | c2 :: _ => c = '.' && isUpperAZ c2
  | [] => false

/-- Generic one-character-at-a-time `re.sub` scanner for the two-character
patterns of the cleaner (`\.([A-Z])` and `([a-z])([A-Z])`): when the match
predicate `M` fires on the current character and the remainder, the
replacement emits the character followed by a space; the matched second
character is rescanned, which is sound because it can never start a new
match of either pattern. -/

def pairScan (M : Char → List Char → Bool) : List Char → List Char
  | [] => []
  | a :: rest => (if M a rest then [a, ' '] else [a]) ++ pairScan M rest

/-- Sentence-boundary repair: `re.sub(r'\.([A-Z])', r'. \1', text)`. -/
def periodFix (l : List Char) : List Char := pairScan periodStartsMatch l

/-- Does `re.sub(r'([a-z])([A-Z])', ...)` match at a position whose
character is `a` and whose remainder is `rest`? -/

def luStartsMatch (a : Char) : List Char → Bool
  | b :: _ => isLowerAZ a && isUpperAZ b
  | [] => false

/-- Merged-word repair inside a paragraph:
`re.sub(r'([a-z])([A-Z])', r'\1 \2', para)`. -/

def lowerUpperFix (l : List Char) : List Char := pairScan luStartsMatch l

/-- `para.replace("\n", " ")`. -/
def replaceNl (l : List Char) : List Char :=
  l.map fun c => if c = '\n' then ' ' else c

/-- Window test for `hasAdj`: does a pair `(a, head of rest)` satisfy
`p` and `q`? -/

def adjWindow (p q : Char → Bool) (a : Char) : List Char → Bool
  | b :: _ => p a && q b
  | [] => false

/-- Adjacent-pair test: does `l` contain consecutive characters `x, y` with
`p x` and `q y`? -/

def hasAdj (p q : Char → Bool) : List Char → Bool
  | [] => false
  | a :: rest => adjWindow p q a rest || hasAdj p q rest

/-- Quadruple window test: does `l` contain four consecutive characters
`a, '-', '\n', d` with `a` and `d` word characters?  This is exactly the
condition for `(\w+)-\n(\w+)` to match somewhere in `l`. -/

def hyphenWindow (a : Char) : List Char → Bool
  | b :: c :: d :: _ => isW a && (b = '-') && (c = '\n') && isW d
  | _ => false

def hasHyphenBreak : List Char → Bool
  | [] => false
  | a :: rest => hyphenWindow a rest || hasHyphenBreak rest

/-! ## Paragraph segmentation: `re.split(r'\n\s*\n', text)`

A match is a `'\n'` followed by the longest whitespace prefix that still
ends just before a `'\n'` (the greedy `\s*` backtracks to the last newline
of the whitespace run).  `re.split` cuts at the leftmost such match and
resumes after it. -/

/-- Index of the last `'\n'` in `l`, if any. -/
def lastNL : List Char → Option Nat
  | [] => none
  | c :: cs =>
    match lastNL cs with
    | some j => some (j + 1)
    | none => if c = '\n' then some 0 else none

/-- Given the text after an initial `'\n'`, find the end of the greedy
`\s*\n` continuation: the remainder after the last `'\n'` inside the
maximal whitespace run. -/

def sepTail (cs : List Char) : Option (List Char) :=
  match lastNL (cs.takeWhile isPySpace) with
  | some j => some (cs.drop (j + 1))
  | none => none

/-- Leftmost match of `\n\s*\n` in `l`: returns the text before the match
and the text after it. -/

def findSep : List Char → Option (List Char × List Char)
  | [] => none
  | c :: cs =>
    if c = '\n' then
      match sepTail cs with
      | some rest => some ([], rest)
      | none =>
        match findSep cs with
        | some (pre, rest) => some (c :: pre, rest)
        | none => none
    else
      match findSep cs with
      | some (pre, rest) => some (c :: pre, rest)
      | none => none

/-- Fuel-indexed `re.split` on `\n\s*\n`. -/
def paraSplitF : Nat → List Char → List (List Char)
  | 0, l => [l]
  | f + 1, l =>
    match findSep l with
    | none => [l]
    | some (pre, rest) => pre :: paraSplitF f rest

/-- `re.split(r'\n\s*\n', text)`.  The fuel `l.length` always suffices. -/
def paraSplit (l : List Char) : List (List Char) := paraSplitF l.length l

/-- Model of `wordninja.split`. -/
abbrev Wordninja := List Char → List (List Char)

/-- The per-token transformation of `split_concatenated_words`'s loop body. -/
def splitWordStep (f : Wordninja) (w : List Char) : List Char :=
  if 15 < w.length then
    let sw := f w
    if 1 < sw.length ∧ joinWith [' '] sw ≠ w then joinWith [' '] sw else w
  else w

/-- `split_concatenated_words` from the source: tokenize with `text.split()`,
transform each token, rejoin with single spaces.  With `wn = none`
(wordninja unavailable) the text is returned unchanged. -/

def splitWordsL (wn : Option Wordninja) (l : List Char) : List Char :=
  match wn with
  | none => l
  | some f => joinWith [' '] ((pySplit l).map (splitWordStep f))

/-- String-level `split_concatenated_words`. -/
def split_concatenated_words (wn : Option Wordninja) (s : String) : String :=
  ⟨splitWordsL wn s.data⟩

/-! ## `clean_extracted_text` -/

/-- The cleaned paragraph list: passes 1–5 of the cleaner (header removal,
hyphenation repair, sentence-boundary repair, paragraph segmentation,
intra-paragraph reflow). -/

def cleanParasL (l : List Char) : List (List Char) :=
  (paraSplit (periodFix (hyphenScan (removePageHeadersL l)))).map
    fun p => lowerUpperFix (pyStrip (replaceNl p))

/-- `clean_extracted_text` from the source, on character lists.
`split_words` is the sidebar flag; `wn` models the wordninja import. -/

def cleanL (split_words : Bool) (wn : Option Wordninja) (l : List Char) :
    List Char :=
  let cleaned := joinWith ['\n', '\n'] (cleanParasL l)
  if split_words then splitWordsL wn cleaned else cleaned

/-- String-level `clean_extracted_text`. -/
def clean_extracted_text (split_words : Bool) (wn : Option Wordninja)
    (s : String) : String :=
  ⟨cleanL split_words wn s.data⟩

/-! ## Extractors

A PDF opened by pdfplumber is a list of pages, each yielding
`page.extract_text()` — `none` models a `None` return, `some t` a string.
A document-level exception (corrupt file) is the `Except.error` case.
For OCR, `convert_from_path` yields one image per page (or fails
document-level); `pytesseract.image_to_string` per page either raises
(`Except.error`, the page is skipped) or returns text. -/

/-- The block appended by `extract_text_pdfplumber` for page `page_num`:
`f"\n\n# Page {page_num}\n\n{page_text}"`. -/

def plumberPageBlock (page_num : Nat) (page_text : String) : String :=
  "\n\n# Page " ++ toString page_num ++ "\n\n" ++ page_text

/-- The block appended by `extract_text_ocr` for 0-based image index `i`:
`f"\n\n# Page {i + 1}\n\n{page_text}"`. -/

def ocrPageBlock (i : Nat) (page_text : String) : String :=
  "\n\n# Page " ++ toString (i + 1) ++ "\n\n" ++ page_text

/-- The page loop of `extract_text_pdfplumber`: `enumerate(pdf.pages, start=1)`
with the truthiness test `if page_text:`. -/

def plumberLoop : Nat → List (Option String) → String
  | _, [] => ""
  | n, p :: ps =>
    (match p with
     | some t => if t ≠ "" then plumberPageBlock n t else ""
     | none => "") ++ plumberLoop (n + 1) ps

/-- `extract_text_pdfplumber`: on a document-level error, the error is
reported and the accumulated text (here `""`) is returned. -/

def extract_text_pdfplumber (doc : Except String (List (Option String))) :
    String :=
  match doc with
  | .error _ => ""
  | .ok pages => plumberLoop 1 pages

/-- The page loop of `extract_text_ocr`: `enumerate(images)`; a page whose
recognition raises is skipped (`continue`), the index still advances. -/

def ocrLoop : Nat → List (Except String String) → String
  | _, [] => ""
  | i, r :: rs =>
    (match r with
     | .ok t => ocrPageBlock i t
     | .error _ => "") ++ ocrLoop (i + 1) rs

/-- `extract_text_ocr`: `tesseract_cmd` is set from the sidebar (a recorded
configuration input with no further effect in the model); if rasterization
fails the error is reported and `""` returned. -/

def extract_text_ocr (tesseract_cmd_path : Option String)
    (images : Except String (List (Except String String))) : String :=
  match images with
  | .error _ => ""
  | .ok imgs => ocrLoop 0 imgs

/-! ## Orchestrator (`process_pdf`)

The file system is a list of temp-file names; `NamedTemporaryFile` with
`delete=False` creates `tmp` (an OS-chosen fresh name), the `finally` block
runs `os.unlink` when `os.path.exists` holds — on the normal path and on the
exception path alike.  An extractor is a function from the temp file name to
`Except` (allowing the call to raise). -/

def process_pdf (fs : List String) (tmp : String) (enable_ocr : Bool)
    (ocr_extract : String → Except String String)
    (plumber_extract : String → Except String String) :
    Except String (Option String) × List String :=
  let fs1 := tmp :: fs
  let r := if enable_ocr then ocr_extract tmp else plumber_extract tmp
  let fs2 := if fs1.contains tmp then fs1.erase tmp else fs1
  match r with
  | .error e => (.error e, fs2)
  | .ok extracted =>
    (.ok (if pyStrip extracted.data = [] then none else some extracted), fs2)

/-- `process_pdf` with the extractors instantiated to the program's own
(which catch their internal exceptions, hence always `Except.ok`):
`rasterize` models `pdf2image.convert_from_path(file, dpi=ocr_dpi, ...)` and
`openDoc` models `pdfplumber.open(file)` together with per-page
`extract_text()`. -/

def process_pdf_full (fs : List String) (tmp : String) (enable_ocr : Bool)
    (ocr_dpi : Nat) (tesseract_cmd_path : Option String)
    (rasterize : String → Nat → Except String (List (Except String String)))
    (openDoc : String → Except String (List (Option String))) :
    Except String (Option String) × List String :=
  process_pdf fs tmp enable_ocr
    (fun f => .ok (extract_text_ocr tesseract_cmd_path (rasterize f ocr_dpi)))
    (fun f => .ok (extract_text_pdfplumber (openDoc f)))

/-- The hyphenation-repair pass on strings (line 97 of the source). -/
def hyphenFix (s : String) : String := ⟨hyphenScan s.data⟩

/-! ## Adjacency framework (for the idempotence analysis) -/

/-- The character class of a literal period. -/
def isDot (c : Char) : Bool := c = '.'

def PostSep (l : List Char) : Prop :=
  ∃ w r, l = w ++ r ∧ (∀ c ∈ w, isPySpace c = true ∧ c ≠ '\n') ∧
    (r = [] ∨ ∃ h t2, r = h :: t2 ∧ isPySpace h = false)

def sepLines : List (List Char) → List (List Char)
  | [] => []
  | [p] => [p]
  | p :: rest => p :: [] :: sepLines rest

/-- Does the text end with a blank paragraph, i.e. with two line feeds? -/
def endsWithBlankPara (l : List Char) : Bool :=
  decide (l.reverse.take 2 = ['\n', '\n'])

theorem isPySpace_not_digit {c : Char} (h : isPySpace c = true) :
    c.isDigit = false := by
  simp only [isPySpace, Bool.or_eq_true, decide_eq_true_eq] at h
  repeat' rcases h with h | h
  all_goals decide

theorem isDigit_not_space {c : Char} (h : c.isDigit = true) :
    isPySpace c = false := by
  cases hs : isPySpace c
  · rfl
  · rw [isPySpace_not_digit hs] at h; cases h

theorem isPySpace_not_W {c : Char} (h : isPySpace c = true) :
    isW c = false := by
  simp only [isPySpace, Bool.or_eq_true, decide_eq_true_eq] at h
  repeat' rcases h with h | h
  all_goals decide

theorem isW_not_space {c : Char} (h : isW c = true) :
    isPySpace c = false := by
  cases hs : isPySpace c
  · rfl
  · rw [isPySpace_not_W hs] at h; cases h

/-! ## Python string primitives -/

/-- Worker for `str.splitlines`: `acc` holds the current line, reversed.
A `"\r\n"` pair counts as a single boundary. -/

theorem joinWith_cons_of_ne_nil (sep x : List Char) {xs : List (List Char)}
    (h : xs ≠ []) : joinWith sep (x :: xs) = x ++ sep ++ joinWith sep xs := by
  cases xs with
  | nil => exact absurd rfl h
  | cons y ys => rfl

/-! ## Header/footer removal (`remove_page_headers`)

The pattern `^\s*\d+/\d+\s+\d{4}\s*$` is backtracking-free because `\s` and
`\d` are disjoint, so a greedy anchored parser is an exact embedding of
`re.match` on it. -/

theorem hmYearEnd_iff (l : List Char) :
    hmYearEnd l = true ↔ ∀ c ∈ l, isPySpace c = true := by
  induction l with
  | nil => simp [hmYearEnd]
  | cons c r ih => simp [hmYearEnd, ih]

theorem hmYear_iff (l : List Char) :
    hmYear l = true ↔
      ∃ y w3, l = y ++ w3 ∧ y.length = 4 ∧ (∀ c ∈ y, c.isDigit = true) ∧
        (∀ c ∈ w3, isPySpace c = true) := by
  constructor
  · intro h
    match l, h with
    | a :: b :: c :: d :: r, h =>
      simp only [hmYear, Bool.and_eq_true] at h
      obtain ⟨⟨⟨⟨ha, hb⟩, hc⟩, hd⟩, hr⟩ := h
      refine ⟨[a, b, c, d], r, by simp, rfl, ?_, (hmYearEnd_iff r).mp hr⟩
      intro x hx
      simp only [List.mem_cons, List.not_mem_nil, or_false] at hx
      rcases hx with rfl|rfl|rfl|rfl <;> assumption
  · rintro ⟨y, w3, rfl, hy4, hy, hw3⟩
    obtain ⟨a, b, c, d, rfl⟩ : ∃ a b c d, y = [a, b, c, d] := by
      match y, hy4 with
      | [a, b, c, d], _ => exact ⟨a, b, c, d, rfl⟩
    simp only [List.cons_append, List.nil_append, hmYear, Bool.and_eq_true]
    exact ⟨⟨⟨⟨hy a (by simp), hy b (by simp)⟩, hy c (by simp)⟩, hy d (by simp)⟩,
      (hmYearEnd_iff w3).mpr hw3⟩

theorem hmYear_head_digit {l : List Char} (h : hmYear l = true) :
    ∃ a r2, l = a :: r2 ∧ a.isDigit = true := by
  match l, h with
  | a :: b :: c :: d :: r, h =>
    simp only [hmYear, Bool.and_eq_true] at h
    exact ⟨a, _, rfl, h.1.1.1.1⟩

theorem hmAfterWs1_iff (l : List Char) :
    hmAfterWs1 l = true ↔
      ∃ w r, l = w ++ r ∧ (∀ c ∈ w, isPySpace c = true) ∧ hmYear r = true := by
  induction l with
  | nil =>
    constructor
    · intro h; exact absurd h (by decide)
    · rintro ⟨w, r, h, hw, hr⟩
      rw [eq_comm, List.append_eq_nil] at h
      obtain ⟨rfl, rfl⟩ := h
      exact absurd hr (by decide)
  | cons c t ih =>
    constructor
    · intro h
      simp only [hmAfterWs1] at h
      by_cases hc : isPySpace c = true
      · rw [if_pos hc] at h
        obtain ⟨w, r, rfl, hw, hr⟩ := ih.mp h
        exact ⟨c :: w, r, rfl, by simpa [hc] using hw, hr⟩
      · rw [if_neg hc] at h
        exact ⟨[], c :: t, rfl, by simp, h⟩
    · rintro ⟨w, r, he, hw, hr⟩
      cases w with
      | nil =>
        simp only [List.nil_append] at he
        subst he
        obtain ⟨a, r2, heq, ha⟩ := hmYear_head_digit hr
        have hcd : c.isDigit = true := by
          injection heq with h1 _
          rw [h1]; exact ha
        simp only [hmAfterWs1]
        rw [if_neg (by simp [isDigit_not_space hcd])]
        exact hr
      | cons s w' =>
        simp only [List.cons_append, List.cons.injEq] at he
        obtain ⟨rfl, rfl⟩ := he
        have hs : isPySpace c = true := hw c (by simp)
        simp only [hmAfterWs1, if_pos hs]
        exact ih.mpr ⟨w', r, rfl, fun x hx => hw x (by simp [hx]), hr⟩

theorem hmAfterD2_iff (l : List Char) :
    hmAfterD2 l = true ↔
      ∃ d2 w2 r, l = d2 ++ w2 ++ r ∧ (∀ c ∈ d2, c.isDigit = true) ∧
        w2 ≠ [] ∧ (∀ c ∈ w2, isPySpace c = true) ∧ hmYear r = true := by
  induction l with
  | nil =>
    constructor
    · intro h; exact absurd h (by decide)
    · rintro ⟨d2, w2, r, h, _, hne, _, _⟩
      rw [eq_comm, List.append_eq_nil, List.append_eq_nil] at h
      exact (hne h.1.2).elim
  | cons c t ih =>
    constructor
    · intro h
      simp only [hmAfterD2] at h
      by_cases hc : c.isDigit = true
      · rw [if_pos hc] at h
        obtain ⟨d2, w2, r, rfl, hd2, hw2ne, hw2, hr⟩ := ih.mp h
        exact ⟨c :: d2, w2, r, rfl, by simpa [hc] using hd2, hw2ne, hw2, hr⟩
      · rw [if_neg hc] at h
        by_cases hs : isPySpace c = true
        · rw [if_pos hs] at h
          obtain ⟨w, r, rfl, hw, hr⟩ := (hmAfterWs1_iff t).mp h
          exact ⟨[], c :: w, r, rfl, by simp, by simp,
            by simpa [hs] using hw, hr⟩
        · rw [if_neg hs] at h; cases h
    · rintro ⟨d2, w2, r, he, hd2, hw2ne, hw2, hr⟩
      cases d2 with
      | nil =>
        obtain ⟨s, w2', rfl⟩ : ∃ s w2', w2 = s :: w2' := by
          cases w2 with
          | nil => exact absurd rfl hw2ne
          | cons x xs => exact ⟨x, xs, rfl⟩
        simp only [List.nil_append, List.cons_append, List.cons.injEq] at he
        obtain ⟨rfl, rfl⟩ := he
        have hs : isPySpace c = true := hw2 c (by simp)
        simp only [hmAfterD2]
        rw [if_neg (by simp [isPySpace_not_digit hs]), if_pos hs]
        exact (hmAfterWs1_iff _).mpr ⟨w2', r, rfl, fun x hx => hw2 x (by simp [hx]), hr⟩
      | cons e d2' =>
        simp only [List.cons_append, List.cons.injEq] at he
        obtain ⟨rfl, rfl⟩ := he
        have hc : c.isDigit = true := hd2 c (by simp)
        simp only [hmAfterD2, if_pos hc]
        exact ih.mpr ⟨d2', w2, r, rfl, fun x hx => hd2 x (by simp [hx]), hw2ne, hw2, hr⟩

theorem hmAfterD1_iff (l : List Char) :
    hmAfterD1 l = true ↔
      ∃ d1 d2 w2 y w3, l = d1 ++ ['/'] ++ d2 ++ w2 ++ y ++ w3 ∧
        (∀ c ∈ d1, c.isDigit = true) ∧
        d2 ≠ [] ∧ (∀ c ∈ d2, c.isDigit = true) ∧
        w2 ≠ [] ∧ (∀ c ∈ w2, isPySpace c = true) ∧
        y.length = 4 ∧ (∀ c ∈ y, c.isDigit = true) ∧
        (∀ c ∈ w3, isPySpace c = true) := by
  induction l with
  | nil =>
    constructor
    · intro h; exact absurd h (by decide)
    · rintro ⟨d1, d2, w2, y, w3, h, _⟩
      simp [List.append_eq_nil] at h
  | cons c t ih =>
    constructor
    · intro h
      simp only [hmAfterD1] at h
      by_cases hc : c.isDigit = true
      · rw [if_pos hc] at h
        obtain ⟨d1, d2, w2, y, w3, rfl, hd1, hrest⟩ := ih.mp h
        exact ⟨c :: d1, d2, w2, y, w3, rfl, by simpa [hc] using hd1, hrest⟩
      · rw [if_neg hc] at h
        by_cases hsl : c = '/'
        · subst hsl
          rw [if_pos rfl] at h
          match t, h with
          | c2 :: r2, h =>
            simp only [Bool.and_eq_true] at h
            obtain ⟨hc2, h2⟩ := h
            obtain ⟨d2, w2, r, rfl, hd2, hw2ne, hw2, hr⟩ := (hmAfterD2_iff r2).mp h2
            obtain ⟨y, w3, rfl, hy4, hy, hw3⟩ := (hmYear_iff r).mp hr
            exact ⟨[], c2 :: d2, w2, y, w3, by simp,
              by simp, by simp, by simpa [hc2] using hd2, hw2ne, hw2, hy4, hy, hw3⟩
        · rw [if_neg hsl] at h; cases h
    · rintro ⟨d1, d2, w2, y, w3, he, hd1, hd2ne, hd2, hw2ne, hw2, hy4, hy, hw3⟩
      cases d1 with
      | nil =>
        obtain ⟨e2, d2t, rfl⟩ : ∃ e2 d2t, d2 = e2 :: d2t := by
          cases d2 with
          | nil => exact absurd rfl hd2ne
          | cons x xs => exact ⟨x, xs, rfl⟩
        have he2 : c :: t = '/' :: e2 :: (d2t ++ (w2 ++ (y ++ w3))) := by
          simpa using he
        injection he2 with h1 h2
        subst h1; subst h2
        show hmAfterD1 ('/' :: e2 :: (d2t ++ (w2 ++ (y ++ w3)))) = true
        rw [show hmAfterD1 ('/' :: e2 :: (d2t ++ (w2 ++ (y ++ w3))))
          = (e2.isDigit && hmAfterD2 (d2t ++ (w2 ++ (y ++ w3)))) from rfl]
        rw [Bool.and_eq_true]
        refine ⟨hd2 e2 (by simp), (hmAfterD2_iff _).mpr
          ⟨d2t, w2, y ++ w3, by simp, fun x hx => hd2 x (by simp [hx]), hw2ne, hw2, ?_⟩⟩
        exact (hmYear_iff _).mpr ⟨y, w3, rfl, hy4, hy, hw3⟩
      | cons e d1' =>
        have he2 : c :: t = e :: (d1' ++ ('/' :: (d2 ++ (w2 ++ (y ++ w3))))) := by
          simpa using he
        injection he2 with h1 h2
        subst h1; subst h2
        have hcd : c.isDigit = true := hd1 c (by simp)
        simp only [hmAfterD1, if_pos hcd]
        exact ih.mpr ⟨d1', d2, w2, y, w3, by simp,
          fun x hx => hd1 x (by simp [hx]), hd2ne, hd2, hw2ne, hw2, hy4, hy, hw3⟩

theorem headerMatch_iff (l : List Char) :
    headerMatch l = true ↔ SpecHeaderLine l := by
  unfold headerMatch
  induction l with
  | nil =>
    constructor
    · intro h; exact absurd h (by decide)
    · rintro ⟨w1, d1, d2, w2, y, w3, h, _, hd1ne, _⟩
      simp [List.append_eq_nil] at h
  | cons c t ih =>
    constructor
    · intro h
      simp only [hmStart] at h
      by_cases hc : isPySpace c = true
      · rw [if_pos hc] at h
        obtain ⟨w1, d1, d2, w2, y, w3, rfl, hw1, hrest⟩ := ih.mp h
        exact ⟨c :: w1, d1, d2, w2, y, w3, rfl, by simpa [hc] using hw1, hrest⟩
      · rw [if_neg hc] at h
        rw [Bool.and_eq_true] at h
        obtain ⟨hcd, h1⟩ := h
        obtain ⟨d1, d2, w2, y, w3, rfl, hd1, hrest⟩ := (hmAfterD1_iff t).mp h1
        exact ⟨[], c :: d1, d2, w2, y, w3, by simp, by simp,
          by simp, by simpa [hcd] using hd1, hrest⟩
    · rintro ⟨w1, d1, d2, w2, y, w3, he, hw1, hd1ne, hd1, hrest⟩
      cases w1 with
      | nil =>
        obtain ⟨e, d1t, rfl⟩ : ∃ e d1t, d1 = e :: d1t := by
          cases d1 with
          | nil => exact absurd rfl hd1ne
          | cons x xs => exact ⟨x, xs, rfl⟩
        have he2 : c :: t = e :: (d1t ++ ('/' :: (d2 ++ (w2 ++ (y ++ w3))))) := by
          simpa using he
        injection he2 with h1 h2
        subst h1; subst h2
        have hcd : c.isDigit = true := hd1 c (by simp)
        simp only [hmStart]
        rw [if_neg (by simp [isDigit_not_space hcd]), Bool.and_eq_true]
        exact ⟨hcd, (hmAfterD1_iff _).mpr ⟨d1t, d2, w2, y, w3, by simp,
          fun x hx => hd1 x (by simp [hx]), hrest⟩⟩
      | cons s w1t =>
        have he2 : c :: t = s :: (w1t ++ ((d1 ++ ('/' :: (d2 ++ (w2 ++ (y ++ w3))))))) := by
          simpa using he
        injection he2 with h1 h2
        subst h1; subst h2
        have hs : isPySpace c = true := hw1 c (by simp)
        simp only [hmStart, if_pos hs]
        exact ih.mpr ⟨w1t, d1, d2, w2, y, w3, by simp,
          fun x hx => hw1 x (by simp [hx]), hd1ne, hd1, hrest⟩

/-! ## Hyphenation repair: `re.sub(r'(\w+)-\n(\w+)', r'\1\2', text)`

`re.sub` scans left to right for the leftmost match, emits the replacement
and resumes after the matched span.  `\w`, `-` and `\n` are pairwise
disjoint, so the greedy match attempt at a position is deterministic. -/

/-- Attempt to match `(\w+)-\n(\w+)` at the head of `l`; on success return
the replacement `\1\2` and the unscanned remainder. -/

theorem hyphenMatchAt_shorter {l repl rest : List Char}
    (h : hyphenMatchAt l = some (repl, rest)) : rest.length + 1 ≤ l.length := by
  unfold hyphenMatchAt at h
  by_cases h1 : (l.takeWhile isW).isEmpty
  · simp [h1] at h
  · rw [if_neg h1] at h
    split at h
    · rename_i c1 c2 r heq
      by_cases hc1 : c1 = '-'
      swap
      · rw [if_neg hc1] at h; cases h
      rw [if_pos hc1] at h
      by_cases hc2 : c2 = '\n'
      swap
      · rw [if_neg hc2] at h; cases h
      rw [if_pos hc2] at h
      by_cases h2 : (r.takeWhile isW).isEmpty
      · simp [h2] at h
      · rw [if_neg h2] at h
        simp only [Option.some.injEq, Prod.mk.injEq] at h
        obtain ⟨_, rfl⟩ := h
        have hr : (r.dropWhile isW).length ≤ r.length :=
          (List.dropWhile_sublist isW).length_le
        have hlen : l.length = (l.takeWhile isW).length + (c1 :: c2 :: r).length := by
          conv_lhs => rw [← List.takeWhile_append_dropWhile isW l]
          rw [List.length_append, heq]
        simp only [List.length_cons] at hlen
        omega
    · cases h

theorem hyphenScanF_congr :
    ∀ (n : Nat) (l : List Char) (f g : Nat), l.length ≤ n →
      l.length ≤ f → l.length ≤ g → hyphenScanF f l = hyphenScanF g l := by
  intro n
  induction n with
  | zero =>
    intro l f g hn _ _
    have : l = [] := List.eq_nil_of_length_eq_zero (Nat.le_zero.mp hn)
    subst this
    cases f <;> cases g <;> rfl
  | succ m ih =>
    intro l f g hn hf hg
    cases l with
    | nil => cases f <;> cases g <;> rfl
    | cons c cs =>
      simp only [List.length_cons] at hn hf hg
      obtain ⟨f', rfl⟩ : ∃ f', f = f' + 1 := ⟨f - 1, by omega⟩
      obtain ⟨g', rfl⟩ : ∃ g', g = g' + 1 := ⟨g - 1, by omega⟩
      simp only [hyphenScanF]
      cases hm : hyphenMatchAt (c :: cs) with
      | none =>
        show c :: hyphenScanF f' cs = c :: hyphenScanF g' cs
        rw [ih cs f' g' (by omega) (by omega) (by omega)]
      | some pr =>
        obtain ⟨repl, rest⟩ := pr
        have hlt := hyphenMatchAt_shorter hm
        simp only [List.length_cons] at hlt
        show repl ++ hyphenScanF f' rest = repl ++ hyphenScanF g' rest
        rw [ih rest f' g' (by omega) (by omega) (by omega)]

theorem hyphenScan_nil : hyphenScan [] = [] := rfl

theorem hyphenScan_cons (c : Char) (cs : List Char) :
    hyphenScan (c :: cs) =
      match hyphenMatchAt (c :: cs) with
      | some (repl, rest) => repl ++ hyphenScan rest
      | none => c :: hyphenScan cs := by
  unfold hyphenScan
  simp only [List.length_cons, hyphenScanF]
  cases hm : hyphenMatchAt (c :: cs) with
  | none =>
    show c :: hyphenScanF cs.length cs = c :: hyphenScan cs
    rfl
  | some pr =>
    obtain ⟨repl, rest⟩ := pr
    have hlt := hyphenMatchAt_shorter hm
    simp only [List.length_cons] at hlt
    show repl ++ hyphenScanF cs.length rest = repl ++ hyphenScan rest
    unfold hyphenScan
    rw [hyphenScanF_congr cs.length rest cs.length rest.length (by omega) (by omega) le_rfl]

/-- Does `re.sub(r'\.([A-Z])', ...)` match at a position whose character is
`c` and whose remainder is `rest`? -/

theorem lastNL_lt_length {l : List Char} {j : Nat} (h : lastNL l = some j) :
    j < l.length := by
  induction l generalizing j with
  | nil => cases h
  | cons c cs ih =>
    simp only [lastNL] at h
    cases hc : lastNL cs with
    | some j0 =>
      rw [hc] at h
      injection h with h
      subst h
      simpa using Nat.succ_lt_succ (ih hc)
    | none =>
      rw [hc] at h
      by_cases he : c = '\n'
      · rw [if_pos he] at h
        injection h with h
        subst h
        simp
      · rw [if_neg he] at h; cases h

theorem sepTail_shorter {cs rest : List Char} (h : sepTail cs = some rest) :
    rest.length + 1 ≤ cs.length := by
  unfold sepTail at h
  cases hj : lastNL (cs.takeWhile isPySpace) with
  | none => rw [hj] at h; cases h
  | some j =>
    rw [hj] at h
    injection h with h
    subst h
    have hlt : j < (cs.takeWhile isPySpace).length := lastNL_lt_length hj
    have hle : (cs.takeWhile isPySpace).length ≤ cs.length :=
      (List.takeWhile_sublist isPySpace).length_le
    simp only [List.length_drop]
    omega

theorem findSep_shorter :
    ∀ {l pre rest : List Char}, findSep l = some (pre, rest) →
      rest.length + 2 ≤ l.length := by
  intro l
  induction l with
  | nil => intro pre rest h; cases h
  | cons c cs ih =>
    intro pre rest h
    simp only [findSep] at h
    by_cases hc : c = '\n'
    · rw [if_pos hc] at h
      cases hs : sepTail cs with
      | some r =>
        rw [hs] at h
        injection h with h
        have h2 : rest = r := (congrArg Prod.snd h).symm
        subst h2
        have := sepTail_shorter hs
        simp only [List.length_cons]
        omega
      | none =>
        rw [hs] at h
        cases hf : findSep cs with
        | some pr =>
          obtain ⟨p0, r0⟩ := pr
          rw [hf] at h
          injection h with h
          have hr : rest = r0 := by
            have := congrArg Prod.snd h
            simpa using this.symm
          subst hr
          have := ih hf
          simp only [List.length_cons]
          omega
        | none => rw [hf] at h; cases h
    · rw [if_neg hc] at h
      cases hf : findSep cs with
      | some pr =>
        obtain ⟨p0, r0⟩ := pr
        rw [hf] at h
        injection h with h
        have hr : rest = r0 := by
          have := congrArg Prod.snd h
          simpa using this.symm
        subst hr
        have := ih hf
        simp only [List.length_cons]
        omega
      | none => rw [hf] at h; cases h

theorem paraSplitF_congr :
    ∀ (n : Nat) (l : List Char) (f g : Nat), l.length ≤ n →
      l.length ≤ f → l.length ≤ g → paraSplitF f l = paraSplitF g l := by
  intro n
  induction n with
  | zero =>
    intro l f g hn _ _
    have hl : l = [] := List.eq_nil_of_length_eq_zero (Nat.le_zero.mp hn)
    subst hl
    cases f <;> cases g <;> simp [paraSplitF, findSep]
  | succ m ih =>
    intro l f g hn hf hg
    cases hl : l with
    | nil => cases f <;> cases g <;> simp [paraSplitF, findSep]
    | cons c cs =>
      subst hl
      cases f with
      | zero => simp at hf
      | succ f' =>
        cases g with
        | zero => simp at hg
        | succ g' =>
          simp only [paraSplitF]
          cases hm : findSep (c :: cs) with
          | none => rfl
          | some pr =>
            obtain ⟨pre, rest⟩ := pr
            have hlt := findSep_shorter hm
            simp only [List.length_cons] at hn hf hg hlt
            show pre :: paraSplitF f' rest = pre :: paraSplitF g' rest
            rw [ih rest f' g' (by omega) (by omega) (by omega)]

theorem paraSplit_eq (l : List Char) :
    paraSplit l =
      match findSep l with
      | none => [l]
      | some (pre, rest) => pre :: paraSplit rest := by
  unfold paraSplit
  cases l with
  | nil => simp [paraSplitF, findSep]
  | cons c cs =>
    simp only [List.length_cons, paraSplitF]
    cases hm : findSep (c :: cs) with
    | none => rfl
    | some pr =>
      obtain ⟨pre, rest⟩ := pr
      have hlt := findSep_shorter hm
      simp only [List.length_cons] at hlt
      show pre :: paraSplitF cs.length rest = pre :: paraSplit rest
      unfold paraSplit
      rw [paraSplitF_congr (cs.length) rest cs.length rest.length (by omega) (by omega) le_rfl]

/-! ## Concatenated-word splitting (`split_concatenated_words`)

`wordninja.split` is an external dictionary segmenter; it is modelled as an
optional parameter of type `Wordninja` — `none` models the `ImportError`
path in which the pass returns its input unchanged. -/

/-! ## Support lemmas -/

theorem pyStrip_eq_nil_iff (l : List Char) :
    pyStrip l = [] ↔ ∀ c ∈ l, isPySpace c = true := by
  unfold pyStrip
  rw [List.reverse_eq_nil_iff, List.dropWhile_eq_nil_iff]
  constructor
  · intro h c hc
    by_cases hcd : c ∈ l.dropWhile isPySpace
    · exact h c (by simpa using hcd)
    · have hl : l = l.takeWhile isPySpace ++ l.dropWhile isPySpace :=
        (List.takeWhile_append_dropWhile ..).symm
      rw [hl] at hc
      rcases List.mem_append.mp hc with h1 | h1
      · exact List.mem_takeWhile_imp h1
      · exact absurd h1 hcd
  · intro h c hc
    exact h c ((List.dropWhile_sublist isPySpace).subset (by simpa using hc))

theorem mem_pyStrip {c : Char} {l : List Char} (h : c ∈ pyStrip l) : c ∈ l := by
  unfold pyStrip at h
  rw [List.mem_reverse] at h
  have h1 := (List.dropWhile_sublist isPySpace).subset h
  rw [List.mem_reverse] at h1
  exact (List.dropWhile_sublist isPySpace).subset h1

theorem not_nl_mem_replaceNl (l : List Char) : '\n' ∉ replaceNl l := by
  intro h
  obtain ⟨c, _, hc⟩ := List.mem_map.mp h
  by_cases he : c = '\n'
  · rw [if_pos he] at hc
    exact absurd hc (by decide)
  · rw [if_neg he] at hc
    exact he hc

theorem mem_pairScan {c : Char} {M : Char → List Char → Bool} :
    ∀ {l : List Char}, c ∈ pairScan M l → c ∈ l ∨ c = ' ' := by
  intro l
  induction l with
  | nil => intro h; cases h
  | cons a rest ih =>
    intro h
    simp only [pairScan] at h
    rcases List.mem_append.mp h with h1 | h1
    · by_cases hm : M a rest = true
      · rw [if_pos hm] at h1
        simp only [List.mem_cons, List.not_mem_nil, or_false] at h1
        rcases h1 with rfl | rfl
        · exact Or.inl (by simp)
        · exact Or.inr rfl
      · rw [if_neg hm] at h1
        simp only [List.mem_cons, List.not_mem_nil, or_false] at h1
        subst h1
        exact Or.inl (by simp)
    · rcases ih h1 with h2 | h2
      · exact Or.inl (by simp [h2])
      · exact Or.inr h2

theorem mem_lowerUpperFix {c : Char} {l : List Char}
    (h : c ∈ lowerUpperFix l) : c ∈ l ∨ c = ' ' := mem_pairScan h

theorem mem_periodFix {c : Char} {l : List Char}
    (h : c ∈ periodFix l) : c ∈ l ∨ c = ' ' := mem_pairScan h

theorem not_nl_mem_cleanPara {q : List Char} :
    '\n' ∉ lowerUpperFix (pyStrip (replaceNl q)) := by
  intro h
  rcases mem_lowerUpperFix h with h1 | h1
  · exact not_nl_mem_replaceNl q (mem_pyStrip h1)
  · cases h1

/-! ## Extractor loop characterizations (for C4 and C9) -/

theorem stringJoin_cons (s : String) (l : List String) :
    String.join (s :: l) = s ++ String.join l := by
  have key : ∀ (l : List String) (a : String),
      l.foldl (fun r t => r ++ t) a = a ++ l.foldl (fun r t => r ++ t) "" := by
    intro l
    induction l with
    | nil => intro a; simp [List.foldl]
    | cons b bs ih =>
      intro a
      simp only [List.foldl]
      rw [ih (a ++ b), ih ("" ++ b), String.empty_append, String.append_assoc]
  show (s :: l).foldl (fun r t => r ++ t) "" = s ++ l.foldl (fun r t => r ++ t) ""
  simp only [List.foldl, String.empty_append]
  exact key l s

theorem plumberLoop_join (pages : List String) (h : ∀ t ∈ pages, t ≠ "") :
    ∀ n, plumberLoop n (pages.map some) =
      String.join ((pages.enumFrom n).map fun p => plumberPageBlock p.1 p.2) := by
  induction pages with
  | nil => intro n; rfl
  | cons t ts ih =>
    intro n
    simp only [List.map_cons, plumberLoop, List.enumFrom_cons]
    rw [if_pos (h t (by simp))]
    rw [stringJoin_cons]
    rw [ih (fun x hx => h x (by simp [hx])) (n + 1)]

theorem ocrLoop_join (pages : List String) :
    ∀ i, ocrLoop i (pages.map Except.ok) =
      String.join ((pages.enumFrom i).map fun p => ocrPageBlock p.1 p.2) := by
  induction pages with
  | nil => intro i; rfl
  | cons t ts ih =>
    intro i
    simp only [List.map_cons, ocrLoop, List.enumFrom_cons]
    rw [stringJoin_cons]
    rw [ih (i + 1)]

/-- C4: for a PDF all of whose pages carry non-empty embedded text, the
digital extractor emits exactly one block per page, numbered `1..n` in the
PDF's physical order; the OCR extractor, when every page is recognized,
emits one block per page with the same strictly increasing numbering. -/

theorem extract_page_blocks_ordered (pages : List String)
    (tesseract_cmd_path : Option String) (h : ∀ t ∈ pages, t ≠ "") :
    extract_text_pdfplumber (.ok (pages.map some)) =
      String.join ((pages.enumFrom 1).map fun p => plumberPageBlock p.1 p.2) ∧
    extract_text_ocr tesseract_cmd_path (.ok (pages.map Except.ok)) =
      String.join ((pages.enumFrom 0).map fun p => ocrPageBlock p.1 p.2) :=
  ⟨plumberLoop_join pages h 1, ocrLoop_join pages 0⟩

theorem extract_page_blocks_ordered_witness :
    extract_text_pdfplumber (.ok (["Hello", "World"].map some)) =
      String.join (((["Hello", "World"] : List String).enumFrom 1).map
        fun p => plumberPageBlock p.1 p.2) ∧
    extract_text_ocr none (.ok (["Hello", "World"].map Except.ok)) =
      String.join (((["Hello", "World"] : List String).enumFrom 0).map
        fun p => ocrPageBlock p.1 p.2) :=
  extract_page_blocks_ordered ["Hello", "World"] none (by decide)

theorem ocrLoop_eq_plumberLoop (pages : List String) (h : ∀ t ∈ pages, t ≠ "") :
    ∀ i, ocrLoop i (pages.map Except.ok) = plumberLoop (i + 1) (pages.map some) := by
  induction pages with
  | nil => intro i; rfl
  | cons t ts ih =>
    intro i
    simp only [List.map_cons, ocrLoop, plumberLoop]
    rw [if_pos (h t (by simp))]
    rw [ih (fun x hx => h x (by simp [hx])) (i + 1)]
    rfl

/-- C9: the block the OCR extractor appends for 0-based image index `i`
(page number `i + 1`) is character-for-character the block the digital
extractor appends for page number `i + 1`; consequently on the same page
texts (all non-empty, all recognized) the two extractors produce identical
output. -/

theorem ocr_block_matches_plumber_block :
    (∀ (i : Nat) (t : String), ocrPageBlock i t = plumberPageBlock (i + 1) t) ∧
    (∀ (tesseract_cmd_path : Option String) (pages : List String),
      (∀ t ∈ pages, t ≠ "") →
        extract_text_ocr tesseract_cmd_path (.ok (pages.map Except.ok)) =
          extract_text_pdfplumber (.ok (pages.map some))) := by
  refine ⟨fun i t => rfl, fun tess pages h => ocrLoop_eq_plumberLoop pages h 0⟩

/-- C3: a line is removed by `remove_page_headers` exactly when, up to
surrounding whitespace, it consists of digits, a slash, digits, whitespace
and a 4-digit number and nothing else; all other lines pass through
unchanged in order (the function is the filter of the non-matching lines),
and in particular `"Section 4/3 2024 notes"` is kept while `"12/3 2024"`
is removed. -/

theorem remove_page_headers_characterization :
    (∀ line : List Char, headerMatch line = true ↔ SpecHeaderLine line) ∧
    (∀ text : String, remove_page_headers text =
      ⟨joinWith ['\n'] ((pySplitlines text.data).filter
        fun line => !headerMatch line)⟩) ∧
    remove_page_headers "Section 4/3 2024 notes" = "Section 4/3 2024 notes" ∧
    remove_page_headers "12/3 2024" = "" :=
  ⟨headerMatch_iff, fun _ => rfl, by decide, by decide⟩

theorem remove_page_headers_characterization_witness :
    SpecHeaderLine ("  12/3 2024 ".data) ∧
      ¬ SpecHeaderLine ("Section 4/3 2024 notes".data) :=
  ⟨(remove_page_headers_characterization.1 _).mp (by decide),
   fun h => by
    have := (remove_page_headers_characterization.1 _).mpr h
    exact absurd this (by decide)⟩

/-- C2: when the selected extractor returns normally with text `t`,
`process_pdf` returns the "no result" signal `none` (a normal return value,
not an exception) exactly when `t` is empty or all-whitespace, and
otherwise returns `some t` — the raw extracted text, before any cleaning. -/

theorem process_pdf_none_iff_whitespace
    (fs : List String) (tmp : String) (enable_ocr : Bool)
    (ocr_extract plumber_extract : String → Except String String) (t : String)
    (h : (if enable_ocr then ocr_extract tmp else plumber_extract tmp) =
      Except.ok t) :
    ((process_pdf fs tmp enable_ocr ocr_extract plumber_extract).1 =
        Except.ok none ↔ t.data.all isPySpace = true) ∧
    (t.data.all isPySpace = false →
      (process_pdf fs tmp enable_ocr ocr_extract plumber_extract).1 =
        Except.ok (some t)) := by
  have hall : (pyStrip t.data = []) ↔ t.data.all isPySpace = true := by
    rw [pyStrip_eq_nil_iff, List.all_eq_true]
  simp only [process_pdf, h]
  by_cases hs : pyStrip t.data = []
  · rw [if_pos hs]
    constructor
    · simp [hall.mp hs]
    · intro hfalse
      have htrue := hall.mp hs
      rw [htrue] at hfalse
      cases hfalse
  · rw [if_neg hs]
    constructor
    · constructor
      · intro heq
        simp at heq
      · intro hws
        exact absurd (hall.mpr hws) hs
    · intro _; rfl

theorem process_pdf_none_iff_whitespace_witness :
    ((process_pdf [] "f" false (fun _ => Except.ok "x")
        (fun _ => Except.ok " \n\t")).1 = Except.ok none) ∧
    ((process_pdf [] "f" false (fun _ => Except.ok " ")
        (fun _ => Except.ok " body ")).1 = Except.ok (some " body ")) :=
  ⟨(process_pdf_none_iff_whitespace [] "f" false (fun _ => Except.ok "x")
      (fun _ => Except.ok " \n\t") " \n\t" rfl).1.mpr (by decide),
   (process_pdf_none_iff_whitespace [] "f" false (fun _ => Except.ok " ")
      (fun _ => Except.ok " body ") " body " rfl).2 (by decide)⟩

/-- C8: the temporary file created by `process_pdf` is absent from the file
system on every exit path — whether the selected extractor returns normally
or raises — and a raised extraction error propagates (after cleanup) rather
than being swallowed. -/

theorem process_pdf_temp_removed
    (fs : List String) (tmp : String) (enable_ocr : Bool)
    (ocr_extract plumber_extract : String → Except String String)
    (h : tmp ∉ fs) :
    tmp ∉ (process_pdf fs tmp enable_ocr ocr_extract plumber_extract).2 ∧
    (∀ e, (if enable_ocr then ocr_extract tmp else plumber_extract tmp) =
        Except.error e →
      (process_pdf fs tmp enable_ocr ocr_extract plumber_extract).1 =
        Except.error e) := by
  have hfs2 : (if (tmp :: fs).contains tmp = true then (tmp :: fs).erase tmp
      else tmp :: fs) = fs := by
    rw [if_pos (by simp), List.erase_cons_head]
  cases hr : (if enable_ocr then ocr_extract tmp else plumber_extract tmp) with
  | error e =>
    constructor
    · simp only [process_pdf, hr, hfs2]
      exact h
    · intro e2 he2
      simp only [process_pdf, hr, hfs2]
      injection he2 with h3
      rw [h3]
  | ok t =>
    constructor
    · simp only [process_pdf, hr, hfs2]
      exact h
    · intro e2 he2
      simp at he2

theorem process_pdf_temp_removed_witness :
    ("t" ∉ (process_pdf [] "t" true (fun _ => Except.error "boom")
        (fun _ => Except.ok "")).2) ∧
    ((process_pdf [] "t" true (fun _ => Except.error "boom")
        (fun _ => Except.ok "")).1 = Except.error "boom") := by
  have h := process_pdf_temp_removed [] "t" true
    (fun _ => Except.error "boom") (fun _ => Except.ok "") (by simp)
  exact ⟨h.1, h.2 "boom" rfl⟩

/-- C10: with OCR disabled, the result of `process_pdf` (both the returned
value and the final file-system state) is identical for any two DPI values
and any two recognition-engine binary paths. -/

theorem process_pdf_dpi_independent
    (fs : List String) (tmp : String) (dpi1 dpi2 : Nat)
    (path1 path2 : Option String)
    (rasterize : String → Nat → Except String (List (Except String String)))
    (openDoc : String → Except String (List (Option String))) :
    process_pdf_full fs tmp false dpi1 path1 rasterize openDoc =
      process_pdf_full fs tmp false dpi2 path2 rasterize openDoc := rfl

/-- C6: the word-splitting pass maps each whitespace-delimited token
independently (rejoining with single spaces); a token of at most 15
characters is kept verbatim, and a longer token is either kept verbatim or
replaced by its segmentation — the latter only when the segmentation has at
least two pieces and its space-rejoined form differs from the token. -/

theorem split_concatenated_words_token_policy (f : Wordninja) (text : String) :
    ∃ g : List Char → List Char,
      split_concatenated_words (some f) text =
        ⟨joinWith [' '] ((pySplit text.data).map g)⟩ ∧
      (∀ w, w.length ≤ 15 → g w = w) ∧
      (∀ w, 15 < w.length →
        g w = w ∨
          (g w = joinWith [' '] (f w) ∧ 1 < (f w).length ∧
            joinWith [' '] (f w) ≠ w)) := by
  refine ⟨splitWordStep f, rfl, ?_, ?_⟩
  · intro w hw
    unfold splitWordStep
    rw [if_neg (by omega)]
  · intro w hw
    unfold splitWordStep
    rw [if_pos hw]
    by_cases hc : 1 < (f w).length ∧ joinWith [' '] (f w) ≠ w
    · rw [if_pos hc]
      exact Or.inr ⟨rfl, hc⟩
    · rw [if_neg hc]
      exact Or.inl rfl

theorem split_concatenated_words_token_policy_witness :
    ∃ g : List Char → List Char,
      split_concatenated_words (some fun w => [w.take 3, w.drop 3])
          "short aaaaaaaaaaaaaaaab" =
        ⟨joinWith [' '] ((pySplit "short aaaaaaaaaaaaaaaab".data).map g)⟩ ∧
      g "short".data = "short".data := by
  obtain ⟨g, h1, h2, _⟩ :=
    split_concatenated_words_token_policy
      (fun w => [w.take 3, w.drop 3]) "short aaaaaaaaaaaaaaaab"
  exact ⟨g, h1, h2 "short".data (by decide)⟩

theorem hasHyphenBreak_tail_false {c : Char} {cs : List Char}
    (h : hasHyphenBreak (c :: cs) = false) : hasHyphenBreak cs = false := by
  rw [hasHyphenBreak, Bool.or_eq_false_iff] at h
  exact h.2

theorem hasHyphenBreak_append_right (s : List Char) {t : List Char}
    (h : hasHyphenBreak t = true) : hasHyphenBreak (s ++ t) = true := by
  induction s with
  | nil => simpa using h
  | cons c s' ih =>
    show hasHyphenBreak (c :: (s' ++ t)) = true
    rw [hasHyphenBreak, ih, Bool.or_true]

theorem hasHyphenBreak_of_shape :
    ∀ (w1 : List Char), w1 ≠ [] → (∀ c ∈ w1, isW c = true) →
      ∀ (d : Char) (v : List Char), isW d = true →
        hasHyphenBreak (w1 ++ '-' :: '\n' :: d :: v) = true := by
  intro w1
  induction w1 with
  | nil => intro h; exact absurd rfl h
  | cons a w1' ih =>
    intro _ hall d v hd
    cases w1' with
    | nil =>
      have ha : isW a = true := hall a (by simp)
      show hasHyphenBreak (a :: '-' :: '\n' :: d :: v) = true
      rw [hasHyphenBreak]
      have hw : hyphenWindow a ('-' :: '\n' :: d :: v) = true := by
        simp [hyphenWindow, ha, hd]
      rw [hw, Bool.true_or]
    | cons b w1'' =>
      have hrec := ih (by simp) (fun c hc => hall c (by simp [hc])) d v hd
      exact hasHyphenBreak_append_right [a] hrec

theorem hyphenMatchAt_some_decomp {l repl rest : List Char}
    (h : hyphenMatchAt l = some (repl, rest)) :
    ∃ w1 w2, l = w1 ++ '-' :: '\n' :: (w2 ++ rest) ∧
      w1 ≠ [] ∧ (∀ c ∈ w1, isW c = true) ∧
      w2 ≠ [] ∧ (∀ c ∈ w2, isW c = true) ∧ repl = w1 ++ w2 := by
  unfold hyphenMatchAt at h
  by_cases h1 : (l.takeWhile isW).isEmpty
  · simp [h1] at h
  · rw [if_neg h1] at h
    split at h
    · rename_i c1 c2 r heq
      by_cases hc1 : c1 = '-'
      swap
      · rw [if_neg hc1] at h; cases h
      rw [if_pos hc1] at h
      by_cases hc2 : c2 = '\n'
      swap
      · rw [if_neg hc2] at h; cases h
      rw [if_pos hc2] at h
      by_cases h2 : (r.takeWhile isW).isEmpty
      · simp [h2] at h
      · rw [if_neg h2] at h
        simp only [Option.some.injEq, Prod.mk.injEq] at h
        obtain ⟨hrepl, hrest⟩ := h
        subst hc1; subst hc2
        refine ⟨l.takeWhile isW, r.takeWhile isW, ?_, by simpa using h1, ?_,
          by simpa using h2, ?_, ?_⟩
        · conv_lhs => rw [← List.takeWhile_append_dropWhile isW l]
          rw [heq, ← hrest, List.takeWhile_append_dropWhile]
        · intro c hc; exact List.mem_takeWhile_imp hc
        · intro c hc; exact List.mem_takeWhile_imp hc
        · exact hrepl.symm
    · cases h

theorem hyphenScan_id_of_no_break :
    ∀ l : List Char, hasHyphenBreak l = false → hyphenScan l = l := by
  intro l
  induction l with
  | nil => intro _; rfl
  | cons c cs ih =>
    intro h
    rw [hyphenScan_cons]
    cases hm : hyphenMatchAt (c :: cs) with
    | none =>
      show c :: hyphenScan cs = c :: cs
      rw [ih (hasHyphenBreak_tail_false h)]
    | some pr =>
      obtain ⟨repl, rest⟩ := pr
      obtain ⟨w1, w2, heq, hw1ne, hw1, hw2ne, hw2, _⟩ := hyphenMatchAt_some_decomp hm
      obtain ⟨d, w2', rfl⟩ : ∃ d w2', w2 = d :: w2' := by
        cases w2 with
        | nil => exact absurd rfl hw2ne
        | cons x xs => exact ⟨x, xs, rfl⟩
      have : hasHyphenBreak (c :: cs) = true := by
        rw [heq]
        have h2 : (d :: w2') ++ rest = d :: (w2' ++ rest) := rfl
        rw [h2]
        exact hasHyphenBreak_of_shape w1 hw1ne hw1 d (w2' ++ rest)
          (hw2 d (by simp))
      rw [this] at h
      cases h

/-- C7: the hyphenation pass rewrites `"exam-\nple"` to `"example"`; on any
text containing no word-character/hyphen/newline/word-character window it is
the identity (a line break not preceded by a hyphenated fragment is never
merged); and on a fragment-hyphen-break-fragment it joins the two fragments
and drops the hyphen and the break. -/

theorem hyphen_repair_spec :
    hyphenFix "exam-\nple" = "example" ∧
    (∀ text : String, hasHyphenBreak text.data = false → hyphenFix text = text) ∧
    (∀ w1 w2 : List Char, w1 ≠ [] → (∀ c ∈ w1, isW c = true) →
      w2 ≠ [] → (∀ c ∈ w2, isW c = true) →
      hyphenScan (w1 ++ '-' :: '\n' :: w2) = w1 ++ w2) := by
  refine ⟨by decide, ?_, ?_⟩
  · intro text h
    show (⟨hyphenScan text.data⟩ : String) = text
    rw [hyphenScan_id_of_no_break text.data h]
  · intro w1 w2 h1ne h1 h2ne h2
    have htk : (w1 ++ '-' :: '\n' :: w2).takeWhile isW = w1 := by
      rw [List.takeWhile_append_of_pos h1,
        List.takeWhile_cons_of_neg (by decide), List.append_nil]
    have hdr : (w1 ++ '-' :: '\n' :: w2).dropWhile isW = '-' :: '\n' :: w2 := by
      rw [List.dropWhile_append_of_pos h1,
        List.dropWhile_cons_of_neg (by decide)]
    have htkw2 : w2.takeWhile isW = w2 := List.takeWhile_eq_self_iff.mpr h2
    have hdrw2 : w2.dropWhile isW = [] := List.dropWhile_eq_nil_iff.mpr h2
    have hm : hyphenMatchAt (w1 ++ '-' :: '\n' :: w2) = some (w1 ++ w2, []) := by
      simp only [hyphenMatchAt, htk, hdr]
      rw [if_neg (by simpa using h1ne)]
      show (if (w2.takeWhile isW).isEmpty = true then none
        else some (w1 ++ w2.takeWhile isW, w2.dropWhile isW)) =
          some (w1 ++ w2, [])
      rw [htkw2, hdrw2, if_neg (by simpa using h2ne)]
    obtain ⟨a, w1', rfl⟩ : ∃ a w1', w1 = a :: w1' := by
      cases w1 with
      | nil => exact absurd rfl h1ne
      | cons x xs => exact ⟨x, xs, rfl⟩
    have hcons : (a :: w1') ++ '-' :: '\n' :: w2 =
        a :: (w1' ++ '-' :: '\n' :: w2) := rfl
    rw [hcons] at hm ⊢
    rw [hyphenScan_cons, hm]
    show ((a :: w1') ++ w2) ++ hyphenScan [] = (a :: w1') ++ w2
    rw [hyphenScan_nil, List.append_nil]

theorem hyphen_repair_spec_witness :
    (hasHyphenBreak "ab\ncd".data = false ∧ hyphenFix "ab\ncd" = "ab\ncd") ∧
    hyphenScan ("ex".data ++ '-' :: '\n' :: "ample".data) =
      "ex".data ++ "ample".data :=
  ⟨⟨by decide, hyphen_repair_spec.2.1 "ab\ncd" (by decide)⟩,
   hyphen_repair_spec.2.2 "ex".data "ample".data (by decide) (by decide)
     (by decide) (by decide)⟩

theorem ocr_block_matches_plumber_block_witness :
    ocrPageBlock 0 "x" = plumberPageBlock 1 "x" ∧
    extract_text_ocr none (.ok (["a", "b"].map Except.ok)) =
      extract_text_pdfplumber (.ok (["a", "b"].map some)) :=
  ⟨ocr_block_matches_plumber_block.1 0 "x",
   ocr_block_matches_plumber_block.2 none ["a", "b"] (by decide)⟩

/-- C1 counterexample: with the concatenated-word-splitting pass enabled
(and the segmenter available), cleaning the already-clean two-paragraph
text `"a\n\nb"` yields the single line `"a b"` — the paragraph boundary is
collapsed to one space, not kept as a double line break. -/

theorem clean_split_breaks_paragraphs :
    clean_extracted_text true (some fun w => [w]) "a\n\nb" ≠ "a\n\nb" ∧
    clean_extracted_text true (some fun w => [w]) "a\n\nb" = "a b" := by
  constructor
  · decide
  · decide

/-- C1 (amended): with the word-splitting pass disabled (or its segmenter
unavailable), the cleaned text is exactly the cleaned paragraphs rejoined
with one blank line (`"\n\n"`), and no cleaned paragraph contains a line
break — intra-paragraph breaks have been replaced by spaces. -/

theorem clean_preserves_paragraphs_when_split_disabled
    (wn : Option Wordninja) (t : String) :
    clean_extracted_text false wn t =
      ⟨joinWith ['\n', '\n'] (cleanParasL t.data)⟩ ∧
    (∀ p ∈ cleanParasL t.data, '\n' ∉ p) ∧
    clean_extracted_text true none t = clean_extracted_text false wn t := by
  refine ⟨rfl, ?_, rfl⟩
  intro p hp
  obtain ⟨q, _, rfl⟩ := List.mem_map.mp hp
  exact not_nl_mem_cleanPara

theorem clean_preserves_paragraphs_when_split_disabled_witness :
    clean_extracted_text false none "one\ntwo\n\nthree" =
      ⟨joinWith ['\n', '\n'] (cleanParasL "one\ntwo\n\nthree".data)⟩ ∧
    '\n' ∉ ("one two" : String).data :=
  ⟨(clean_preserves_paragraphs_when_split_disabled none "one\ntwo\n\nthree").1,
   (clean_preserves_paragraphs_when_split_disabled none "one\ntwo\n\nthree").2.1
     "one two".data (by decide)⟩

/-- C5 counterexample: the cleaner is not idempotent.  Cleaning
`"49/3\n2024"` joins the two lines into `"49/3 2024"`, which the second
run's header-removal pass deletes, so cleaning twice gives `""`. -/

theorem clean_not_idempotent :
    clean_extracted_text false none "49/3\n2024" = "49/3 2024" ∧
    clean_extracted_text false none
        (clean_extracted_text false none "49/3\n2024") ≠
      clean_extracted_text false none "49/3\n2024" := by
  constructor
  · decide
  · decide

theorem hasAdj_cons (p q : Char → Bool) (a : Char) (rest : List Char) :
    hasAdj p q (a :: rest) = (adjWindow p q a rest || hasAdj p q rest) := by
  rw [hasAdj]

theorem hasAdj_cons_false {p q : Char → Bool} {a : Char} {rest : List Char}
    (h : hasAdj p q (a :: rest) = false) :
    adjWindow p q a rest = false ∧ hasAdj p q rest = false := by
  rw [hasAdj_cons, Bool.or_eq_false_iff] at h
  exact h

theorem hasAdj_append (p q : Char → Bool) (u v : List Char) :
    hasAdj p q (u ++ v) = true ↔
      hasAdj p q u = true ∨ hasAdj p q v = true ∨
        (∃ x y, u.getLast? = some x ∧ v.head? = some y ∧
          p x = true ∧ q y = true) := by
  induction u with
  | nil =>
    constructor
    · intro h
      exact Or.inr (Or.inl h)
    · rintro (h | h | ⟨x, y, hx, hy, hpx, hqy⟩)
      · rw [show hasAdj p q ([] : List Char) = false from rfl] at h
        cases h
      · exact h
      · rw [show (([] : List Char).getLast? : Option Char) = none from rfl] at hx
        cases hx
  | cons a u' ih =>
    rw [List.cons_append, hasAdj_cons, Bool.or_eq_true, ih]
    cases u' with
    | nil =>
      constructor
      · rintro (hw | h | h | ⟨x, y, hx, hy, hpx, hqy⟩)
        · cases v with
          | nil =>
            rw [show adjWindow p q a ([] ++ ([] : List Char)) = false from rfl] at hw
            cases hw
          | cons b v' =>
            rw [show adjWindow p q a ([] ++ b :: v') = (p a && q b) from rfl,
              Bool.and_eq_true] at hw
            exact Or.inr (Or.inr ⟨a, b, rfl, rfl, hw.1, hw.2⟩)
        · rw [show hasAdj p q ([] : List Char) = false from rfl] at h
          cases h
        · exact Or.inr (Or.inl h)
        · rw [show (([] : List Char).getLast? : Option Char) = none from rfl] at hx
          cases hx
      · rintro (h | h | ⟨x, y, hx, hy, hpx, hqy⟩)
        · rw [show hasAdj p q [a] = false from rfl] at h
          cases h
        · exact Or.inr (Or.inr (Or.inl h))
        · rw [show ([a].getLast? : Option Char) = some a from rfl] at hx
          injection hx with hx
          rw [← hx] at hpx
          cases v with
          | nil =>
            rw [show (([] : List Char).head? : Option Char) = none from rfl] at hy
            cases hy
          | cons b v' =>
            rw [show ((b :: v').head? : Option Char) = some b from rfl] at hy
            injection hy with hy
            rw [← hy] at hqy
            left
            rw [show adjWindow p q a ([] ++ b :: v') = (p a && q b) from rfl,
              hpx, hqy]
            rfl
    | cons a2 u'' =>
      have hwin : adjWindow p q a ((a2 :: u'') ++ v) = adjWindow p q a (a2 :: u'') := rfl
      rw [hwin]
      have hlast : (a :: a2 :: u'').getLast? = (a2 :: u'').getLast? :=
        List.getLast?_cons_cons ..
      rw [hlast]
      constructor
      · rintro (hw | h | h | hj)
        · left
          rw [hasAdj_cons, hw]
          rfl
        · left
          rw [hasAdj_cons, h, Bool.or_true]
        · exact Or.inr (Or.inl h)
        · exact Or.inr (Or.inr hj)
      · rintro (h | h | hj)
        · rw [hasAdj_cons, Bool.or_eq_true] at h
          rcases h with h | h
          · exact Or.inl h
          · exact Or.inr (Or.inl h)
        · exact Or.inr (Or.inr (Or.inl h))
        · exact Or.inr (Or.inr (Or.inr hj))

theorem hasAdj_append_false {p q : Char → Bool} {u v : List Char}
    (h : hasAdj p q (u ++ v) = false) :
    hasAdj p q u = false ∧ hasAdj p q v = false := by
  constructor
  · cases hu : hasAdj p q u
    · rfl
    · have := (hasAdj_append p q u v).mpr (Or.inl hu)
      rw [this] at h; cases h
  · cases hv : hasAdj p q v
    · rfl
    · have := (hasAdj_append p q u v).mpr (Or.inr (Or.inl hv))
      rw [this] at h; cases h

theorem hasAdj_infix {p q : Char → Bool} {x u v : List Char}
    (h : hasAdj p q (u ++ x ++ v) = false) : hasAdj p q x = false := by
  rw [List.append_assoc] at h
  have h1 := (hasAdj_append_false h).2
  exact (hasAdj_append_false h1).1

theorem hasAdj_map (p q : Char → Bool) (f : Char → Char)
    (hp : ∀ c, p (f c) = p c) (hq : ∀ c, q (f c) = q c) :
    ∀ l : List Char, hasAdj p q (l.map f) = hasAdj p q l := by
  intro l
  induction l with
  | nil => rfl
  | cons a rest ih =>
    rw [List.map_cons, hasAdj_cons, hasAdj_cons, ih]
    have hw : adjWindow p q (f a) (rest.map f) = adjWindow p q a rest := by
      cases rest with
      | nil => rfl
      | cons b rest' =>
        show (p (f a) && q (f b)) = (p a && q b)
        rw [hp, hq]
    rw [hw]

/-! ## Scanner fixpoint and output-shape lemmas -/

theorem getLast_append_ne_nil {α : Type} {l l2 : List α} (h : l2 ≠ []) :
    (l ++ l2).getLast? = l2.getLast? := by
  rw [List.getLast?_append]
  cases hg : l2.getLast? with
  | none => exact absurd (List.getLast?_eq_none_iff.mp hg) h
  | some x => rfl

theorem pairScan_cons (M : Char → List Char → Bool) (a : Char)
    (rest : List Char) :
    pairScan M (a :: rest) =
      (if M a rest then [a, ' '] else [a]) ++ pairScan M rest := by
  rw [pairScan]

theorem pairScan_head (M : Char → List Char → Bool) (l : List Char) :
    (pairScan M l).head? = l.head? := by
  cases l with
  | nil => rfl
  | cons a rest =>
    rw [pairScan_cons]
    by_cases hm : M a rest = true
    · rw [if_pos hm]; rfl
    · rw [if_neg hm]; rfl

theorem pairScan_ne_nil {M : Char → List Char → Bool} {l : List Char}
    (h : l ≠ []) : pairScan M l ≠ [] := by
  cases l with
  | nil => exact absurd rfl h
  | cons a rest =>
    rw [pairScan_cons]
    by_cases hm : M a rest = true
    · rw [if_pos hm]; simp
    · rw [if_neg hm]; simp

theorem pairScan_getLast (M : Char → List Char → Bool)
    (hM0 : ∀ a, M a [] = false) :
    ∀ l : List Char, (pairScan M l).getLast? = l.getLast? := by
  intro l
  induction l with
  | nil => rfl
  | cons a rest ih =>
    rw [pairScan_cons]
    cases rest with
    | nil =>
      rw [if_neg (by rw [hM0 a]; exact Bool.false_ne_true)]
      rfl
    | cons b rest' =>
      have hne : pairScan M (b :: rest') ≠ [] := pairScan_ne_nil (by simp)
      rw [getLast_append_ne_nil hne, ih, List.getLast?_cons_cons]

theorem pairScan_id_of_no_adj {M : Char → List Char → Bool}
    {p q : Char → Bool} (hM : ∀ a r, M a r = adjWindow p q a r) :
    ∀ l : List Char, hasAdj p q l = false → pairScan M l = l := by
  intro l
  induction l with
  | nil => intro _; rfl
  | cons a rest ih =>
    intro h
    obtain ⟨hw, ht⟩ := hasAdj_cons_false h
    rw [pairScan_cons, if_neg (by rw [hM, hw]; exact Bool.false_ne_true), ih ht]
    rfl

theorem pairScan_no_adj {M : Char → List Char → Bool} {p q : Char → Bool}
    (hM : ∀ a r, M a r = adjWindow p q a r)
    (hps : p ' ' = false) (hqs : q ' ' = false) :
    ∀ l : List Char, hasAdj p q (pairScan M l) = false := by
  intro l
  induction l with
  | nil => rfl
  | cons a rest ih =>
    rw [pairScan_cons]
    cases hres : hasAdj p q
      ((if M a rest then [a, ' '] else [a]) ++ pairScan M rest)
    · rfl
    exfalso
    rcases (hasAdj_append ..).mp hres with hchunk | hrec | ⟨x, y, hx, hy, hpx, hqy⟩
    · by_cases hm : M a rest = true
      · rw [if_pos hm] at hchunk
        rw [show hasAdj p q [a, ' '] = ((p a && q ' ') || false) from rfl,
          Bool.or_false] at hchunk
        rw [hqs, Bool.and_false] at hchunk
        cases hchunk
      · rw [if_neg hm] at hchunk
        rw [show hasAdj p q [a] = false from rfl] at hchunk
        cases hchunk
    · rw [ih] at hrec; cases hrec
    · by_cases hm : M a rest = true
      · rw [if_pos hm] at hx
        rw [show ([a, ' '].getLast? : Option Char) = some ' ' from rfl] at hx
        injection hx with hx
        rw [← hx] at hpx
        rw [hps] at hpx
        cases hpx
      · rw [if_neg hm] at hx
        rw [show ([a].getLast? : Option Char) = some a from rfl] at hx
        injection hx with hx
        rw [← hx] at hpx
        rw [pairScan_head] at hy
        cases rest with
        | nil => cases hy
        | cons b rest' =>
          injection hy with hy
          rw [← hy] at hqy
          have : M a (b :: rest') = true := by
            rw [hM]
            show (p a && q b) = true
            rw [hpx, hqy]
            rfl
          rw [this] at hm
          exact hm rfl

theorem pairScan_preserves_no_adj {M : Char → List Char → Bool}
    {p q : Char → Bool} (hps : p ' ' = false) (hqs : q ' ' = false) :
    ∀ l : List Char, hasAdj p q l = false →
      hasAdj p q (pairScan M l) = false := by
  intro l
  induction l with
  | nil => intro _; rfl
  | cons a rest ih =>
    intro h
    obtain ⟨hw, ht⟩ := hasAdj_cons_false h
    rw [pairScan_cons]
    cases hres : hasAdj p q
      ((if M a rest then [a, ' '] else [a]) ++ pairScan M rest)
    · rfl
    exfalso
    rcases (hasAdj_append ..).mp hres with hchunk | hrec | ⟨x, y, hx, hy, hpx, hqy⟩
    · by_cases hm : M a rest = true
      · rw [if_pos hm] at hchunk
        rw [show hasAdj p q [a, ' '] = ((p a && q ' ') || false) from rfl,
          Bool.or_false] at hchunk
        rw [hqs, Bool.and_false] at hchunk
        cases hchunk
      · rw [if_neg hm] at hchunk
        rw [show hasAdj p q [a] = false from rfl] at hchunk
        cases hchunk
    · rw [ih ht] at hrec; cases hrec
    · by_cases hm : M a rest = true
      · rw [if_pos hm] at hx
        rw [show ([a, ' '].getLast? : Option Char) = some ' ' from rfl] at hx
        injection hx with hx
        rw [← hx] at hpx
        rw [hps] at hpx
        cases hpx
      · rw [if_neg hm] at hx
        rw [show ([a].getLast? : Option Char) = some a from rfl] at hx
        injection hx with hx
        rw [← hx] at hpx
        rw [pairScan_head] at hy
        cases rest with
        | nil => cases hy
        | cons b rest' =>
          injection hy with hy
          rw [← hy] at hqy
          rw [show adjWindow p q a (b :: rest') = (p a && q b) from rfl,
            hpx, hqy] at hw
          cases hw

theorem luStartsMatch_eq_adjWindow (a : Char) (r : List Char) :
    luStartsMatch a r = adjWindow isLowerAZ isUpperAZ a r := by
  cases r <;> rfl

theorem periodStartsMatch_eq_adjWindow (a : Char) (r : List Char) :
    periodStartsMatch a r = adjWindow isDot isUpperAZ a r := by
  cases r <;> rfl

theorem lowerUpperFix_no_adj (l : List Char) :
    hasAdj isLowerAZ isUpperAZ (lowerUpperFix l) = false :=
  pairScan_no_adj luStartsMatch_eq_adjWindow (by decide) (by decide) l

theorem periodFix_no_adj (l : List Char) :
    hasAdj isDot isUpperAZ (periodFix l) = false :=
  pairScan_no_adj periodStartsMatch_eq_adjWindow (by decide) (by decide) l

theorem lowerUpperFix_id_of_no_adj {l : List Char}
    (h : hasAdj isLowerAZ isUpperAZ l = false) : lowerUpperFix l = l :=
  pairScan_id_of_no_adj luStartsMatch_eq_adjWindow l h

theorem periodFix_id_of_no_adj {l : List Char}
    (h : hasAdj isDot isUpperAZ l = false) : periodFix l = l :=
  pairScan_id_of_no_adj periodStartsMatch_eq_adjWindow l h

theorem lowerUpperFix_preserves_no_adj {p q : Char → Bool}
    (hps : p ' ' = false) (hqs : q ' ' = false) {l : List Char}
    (h : hasAdj p q l = false) : hasAdj p q (lowerUpperFix l) = false :=
  pairScan_preserves_no_adj hps hqs l h

/-! ## `pyStrip` structure -/

theorem dropWhile_head_not {p : Char → Bool} :
    ∀ {l : List Char} {c : Char} {cs : List Char},
      List.dropWhile p l = c :: cs → p c = false := by
  intro l
  induction l with
  | nil => intro c cs h; cases h
  | cons a l' ih =>
    intro c cs h
    by_cases hp : p a = true
    · rw [List.dropWhile_cons_of_pos hp] at h
      exact ih h
    · rw [List.dropWhile_cons_of_neg hp] at h
      injection h with h1 _
      rw [← h1]
      exact Bool.eq_false_iff.mpr hp

theorem pyStrip_head_not_ws {l : List Char} {c : Char}
    (h : (pyStrip l).head? = some c) : isPySpace c = false := by
  unfold pyStrip at h
  rw [List.head?_reverse] at h
  set z := ((l.dropWhile isPySpace).reverse).dropWhile isPySpace with hz
  have hzne : z ≠ [] := by
    intro he
    rw [he] at h
    cases h
  have h1 : z.getLast? = ((l.dropWhile isPySpace).reverse).getLast? := by
    conv_rhs => rw [show (l.dropWhile isPySpace).reverse =
      ((l.dropWhile isPySpace).reverse).takeWhile isPySpace ++ z from
        (List.takeWhile_append_dropWhile ..).symm]
    rw [getLast_append_ne_nil hzne]
  rw [h1, List.getLast?_reverse] at h
  cases hm : l.dropWhile isPySpace with
  | nil => rw [hm] at h; cases h
  | cons d r =>
    rw [hm] at h
    injection h with h
    rw [← h]
    exact dropWhile_head_not hm

theorem pyStrip_getLast_not_ws {l : List Char} {c : Char}
    (h : (pyStrip l).getLast? = some c) : isPySpace c = false := by
  unfold pyStrip at h
  rw [List.getLast?_reverse] at h
  cases hm : ((l.dropWhile isPySpace).reverse).dropWhile isPySpace with
  | nil => rw [hm] at h; cases h
  | cons d r =>
    rw [hm] at h
    injection h with h
    rw [← h]
    exact dropWhile_head_not hm

theorem pyStrip_eq_self {l : List Char}
    (hh : ∀ c, l.head? = some c → isPySpace c = false)
    (hl : ∀ c, l.getLast? = some c → isPySpace c = false) :
    pyStrip l = l := by
  cases l with
  | nil => rfl
  | cons a l' =>
    have ha : isPySpace a = false := hh a rfl
    unfold pyStrip
    rw [List.dropWhile_cons_of_neg (by rw [ha]; exact Bool.false_ne_true)]
    cases hrev : (a :: l').reverse with
    | nil => exact absurd hrev (by simp)
    | cons d r =>
      have hd : (a :: l').getLast? = some d := by
        rw [← List.head?_reverse, hrev]
        rfl
      have hdw : isPySpace d = false := hl d hd
      rw [List.dropWhile_cons_of_neg (by rw [hdw]; exact Bool.false_ne_true),
        ← hrev, List.reverse_reverse]

theorem pyStrip_cleanPara (y : List Char) :
    pyStrip (lowerUpperFix (pyStrip y)) = lowerUpperFix (pyStrip y) := by
  apply pyStrip_eq_self
  · intro c hc
    rw [show lowerUpperFix (pyStrip y) = pairScan luStartsMatch (pyStrip y)
      from rfl, pairScan_head] at hc
    exact pyStrip_head_not_ws hc
  · intro c hc
    rw [show lowerUpperFix (pyStrip y) = pairScan luStartsMatch (pyStrip y)
      from rfl, pairScan_getLast luStartsMatch (fun a => rfl)] at hc
    exact pyStrip_getLast_not_ws hc

theorem pyStrip_infix (l : List Char) :
    ∃ u v, l = u ++ pyStrip l ++ v := by
  refine ⟨l.takeWhile isPySpace,
    (((l.dropWhile isPySpace).reverse).takeWhile isPySpace).reverse, ?_⟩
  conv_lhs => rw [← List.takeWhile_append_dropWhile isPySpace l]
  rw [List.append_assoc]
  congr 1
  conv_lhs => rw [← List.reverse_reverse (l.dropWhile isPySpace)]
  conv_lhs =>
    rw [← List.takeWhile_append_dropWhile isPySpace
      (l.dropWhile isPySpace).reverse]
  rw [List.reverse_append]
  rfl

theorem pyStrip_ne_nil_of_mem {l : List Char} {c : Char} (hc : c ∈ l)
    (hw : isPySpace c = false) : pyStrip l ≠ [] := by
  intro he
  have := (pyStrip_eq_nil_iff l).mp he c hc
  rw [this] at hw
  cases hw

/-! ## `findSep` and `paraSplit` structure -/

theorem lastNL_none_no_nl : ∀ {l : List Char}, lastNL l = none → '\n' ∉ l := by
  intro l
  induction l with
  | nil => intro _ h; cases h
  | cons c cs ih =>
    intro h hm
    simp only [lastNL] at h
    cases hc : lastNL cs with
    | some j => rw [hc] at h; cases h
    | none =>
      rw [hc] at h
      by_cases he : c = '\n'
      · rw [if_pos he] at h; cases h
      · rw [if_neg he] at h
        rcases List.mem_cons.mp hm with h1 | h1
        · exact he h1.symm
        · exact ih hc h1

theorem lastNL_decomp :
    ∀ {l : List Char} {j : Nat}, lastNL l = some j →
      ∃ u v, l = u ++ '\n' :: v ∧ u.length = j ∧ '\n' ∉ v := by
  intro l
  induction l with
  | nil => intro j h; cases h
  | cons c cs ih =>
    intro j h
    simp only [lastNL] at h
    cases hc : lastNL cs with
    | some j0 =>
      rw [hc] at h
      injection h with h
      obtain ⟨u, v, rfl, hlen, hv⟩ := ih hc
      exact ⟨c :: u, v, rfl, by simp [hlen, ← h], hv⟩
    | none =>
      rw [hc] at h
      by_cases he : c = '\n'
      · rw [if_pos he] at h
        injection h with h
        subst he
        exact ⟨[], cs, rfl, by simp [← h], lastNL_none_no_nl hc⟩
      · rw [if_neg he] at h; cases h

theorem findSep_none_of_no_nl : ∀ {l : List Char}, '\n' ∉ l →
    findSep l = none := by
  intro l
  induction l with
  | nil => intro _; rfl
  | cons c cs ih =>
    intro h
    have hc : ¬ c = '\n' := fun he => h (by simp [he])
    have hcs : '\n' ∉ cs := fun hm => h (by simp [hm])
    simp only [findSep]
    rw [if_neg hc, ih hcs]

theorem findSep_decomp :
    ∀ {l pre rest : List Char}, findSep l = some (pre, rest) →
      ∃ mid, l = pre ++ '\n' :: mid ∧ sepTail mid = some rest := by
  intro l
  induction l with
  | nil => intro pre rest h; cases h
  | cons c cs ih =>
    intro pre rest h
    simp only [findSep] at h
    by_cases hc : c = '\n'
    · rw [if_pos hc] at h
      cases hs : sepTail cs with
      | some r =>
        rw [hs] at h
        injection h with h
        have h1 : pre = [] := (congrArg Prod.fst h).symm
        have h2 : rest = r := (congrArg Prod.snd h).symm
        subst h1; subst h2
        subst hc
        exact ⟨cs, rfl, hs⟩
      | none =>
        rw [hs] at h
        cases hf : findSep cs with
        | some pr =>
          obtain ⟨u, v⟩ := pr
          rw [hf] at h
          injection h with h
          have h1 : pre = c :: u := (congrArg Prod.fst h).symm
          have h2 : rest = v := (congrArg Prod.snd h).symm
          subst h1; subst h2
          obtain ⟨mid, rfl, hst⟩ := ih hf
          exact ⟨mid, rfl, hst⟩
        | none => rw [hf] at h; cases h
    · rw [if_neg hc] at h
      cases hf : findSep cs with
      | some pr =>
        obtain ⟨u, v⟩ := pr
        rw [hf] at h
        injection h with h
        have h1 : pre = c :: u := (congrArg Prod.fst h).symm
        have h2 : rest = v := (congrArg Prod.snd h).symm
        subst h1; subst h2
        obtain ⟨mid, rfl, hst⟩ := ih hf
        exact ⟨mid, rfl, hst⟩
      | none => rw [hf] at h; cases h

theorem findSep_append_none {p : List Char} (hp : '\n' ∉ p) :
    ∀ {m : List Char}, findSep m = none → findSep (p ++ m) = none := by
  induction p with
  | nil => intro m h; simpa using h
  | cons c p' ih =>
    intro m h
    have hc : ¬ c = '\n' := fun he => hp (by simp [he])
    have hp' : '\n' ∉ p' := fun hm => hp (by simp [hm])
    show findSep (c :: (p' ++ m)) = none
    simp only [findSep]
    rw [if_neg hc, ih hp' h]

theorem findSep_append_some {p : List Char} (hp : '\n' ∉ p) :
    ∀ {m u v : List Char}, findSep m = some (u, v) →
      findSep (p ++ m) = some (p ++ u, v) := by
  induction p with
  | nil => intro m u v h; simpa using h
  | cons c p' ih =>
    intro m u v h
    have hc : ¬ c = '\n' := fun he => hp (by simp [he])
    have hp' : '\n' ∉ p' := fun hm => hp (by simp [hm])
    show findSep (c :: (p' ++ m)) = some ((c :: p') ++ u, v)
    simp only [findSep]
    rw [if_neg hc, ih hp' h]
    rfl

theorem paraSplit_ne_nil (l : List Char) : paraSplit l ≠ [] := by
  rw [paraSplit_eq]
  cases h : findSep l with
  | none => simp
  | some pr => obtain ⟨u, v⟩ := pr; simp

theorem sepTail_split {cs rest : List Char} (h : sepTail cs = some rest) :
    ∃ w, cs = w ++ rest := by
  unfold sepTail at h
  cases hj : lastNL (cs.takeWhile isPySpace) with
  | none => rw [hj] at h; cases h
  | some j =>
    rw [hj] at h
    injection h with h
    exact ⟨cs.take (j + 1), by rw [← h]; exact (List.take_append_drop ..).symm⟩

theorem mem_joinWith {c : Char} {sep : List Char} :
    ∀ {ps : List (List Char)}, c ∈ joinWith sep ps →
      c ∈ sep ∨ ∃ p ∈ ps, c ∈ p := by
  intro ps
  induction ps with
  | nil => intro h; cases h
  | cons x xs ih =>
    intro h
    cases xs with
    | nil =>
      exact Or.inr ⟨x, by simp, h⟩
    | cons y ys =>
      rw [joinWith_cons_of_ne_nil sep x (by simp)] at h
      rcases List.mem_append.mp h with h1 | h1
      · rcases List.mem_append.mp h1 with h2 | h2
        · exact Or.inr ⟨x, by simp, h2⟩
        · exact Or.inl h2
      · rcases ih h1 with h2 | ⟨p, hp, hcp⟩
        · exact Or.inl h2
        · exact Or.inr ⟨p, by simp [hp], hcp⟩

theorem joinWith_append_last (sep y : List Char) :
    ∀ {xs : List (List Char)}, xs ≠ [] →
      joinWith sep (xs ++ [y]) = joinWith sep xs ++ sep ++ y := by
  intro xs
  induction xs with
  | nil => intro h; exact absurd rfl h
  | cons x xs' ih =>
    intro _
    cases xs' with
    | nil => rfl
    | cons z zs =>
      rw [show (x :: z :: zs) ++ [y] = x :: ((z :: zs) ++ [y]) from rfl,
        joinWith_cons_of_ne_nil sep x (by simp),
        joinWith_cons_of_ne_nil sep x (by simp),
        ih (by simp)]
      simp [List.append_assoc]

theorem mem_hyphenScan :
    ∀ (n : Nat) (l : List Char), l.length ≤ n →
      ∀ c ∈ hyphenScan l, c ∈ l := by
  intro n
  induction n with
  | zero =>
    intro l hn c hc
    have : l = [] := List.eq_nil_of_length_eq_zero (Nat.le_zero.mp hn)
    subst this
    exact hc
  | succ m ih =>
    intro l hn c hc
    cases l with
    | nil => exact hc
    | cons a cs =>
      rw [hyphenScan_cons] at hc
      cases hm : hyphenMatchAt (a :: cs) with
      | none =>
        rw [hm] at hc
        rcases List.mem_cons.mp hc with h1 | h1
        · simp [h1]
        · have := ih cs (by simpa using hn) c h1
          simp [this]
      | some pr =>
        obtain ⟨repl, rest⟩ := pr
        rw [hm] at hc
        obtain ⟨w1, w2, heq, _, _, _, _, hrepl⟩ := hyphenMatchAt_some_decomp hm
        have hlen := hyphenMatchAt_shorter hm
        simp only [List.length_cons] at hn hlen
        rcases List.mem_append.mp hc with h1 | h1
        · rw [hrepl] at h1
          rcases List.mem_append.mp h1 with h2 | h2
          · rw [heq]; simp [h2]
          · rw [heq]; simp [h2]
        · have := ih rest (by omega) c h1
          rw [heq]; simp [this]

theorem mem_paraSplit_infix :
    ∀ (n : Nat) (l : List Char), l.length ≤ n →
      ∀ q ∈ paraSplit l, ∃ u v, l = u ++ q ++ v := by
  intro n
  induction n with
  | zero =>
    intro l hn q hq
    have : l = [] := List.eq_nil_of_length_eq_zero (Nat.le_zero.mp hn)
    subst this
    rw [show paraSplit [] = [[]] from rfl] at hq
    simp only [List.mem_cons, List.not_mem_nil, or_false] at hq
    subst hq
    exact ⟨[], [], rfl⟩
  | succ m ih =>
    intro l hn q hq
    rw [paraSplit_eq] at hq
    cases hm : findSep l with
    | none =>
      rw [hm] at hq
      simp only [List.mem_cons, List.not_mem_nil, or_false] at hq
      subst hq
      exact ⟨[], [], by simp⟩
    | some pr =>
      obtain ⟨pre, rest⟩ := pr
      rw [hm] at hq
      have hlen := findSep_shorter hm
      obtain ⟨mid, heq, hst⟩ := findSep_decomp hm
      obtain ⟨w, hmid⟩ := sepTail_split hst
      rcases List.mem_cons.mp hq with h1 | h1
      · subst h1
        exact ⟨[], '\n' :: mid, by simp [heq]⟩
      · obtain ⟨u, v, hrest⟩ := ih rest (by omega) q h1
        refine ⟨pre ++ '\n' :: w ++ u, v, ?_⟩
        rw [heq, hmid, hrest]
        simp

/-- The shape of a remainder produced by a separator match: a whitespace
run containing no newline, followed by nothing or a non-whitespace
character. -/

theorem sepTail_postSep {cs rest : List Char} (h : sepTail cs = some rest) :
    PostSep rest := by
  unfold sepTail at h
  cases hj : lastNL (cs.takeWhile isPySpace) with
  | none => rw [hj] at h; cases h
  | some j =>
    rw [hj] at h
    injection h with h
    obtain ⟨u, v, hrun, hulen, hv⟩ := lastNL_decomp hj
    have hcs : cs = (u ++ '\n' :: v) ++ cs.dropWhile isPySpace := by
      conv_lhs => rw [← List.takeWhile_append_dropWhile isPySpace cs]
      rw [hrun]
    have hdrop : cs.drop (j + 1) = v ++ cs.dropWhile isPySpace := by
      conv_lhs => rw [hcs]
      rw [show (u ++ '\n' :: v) ++ cs.dropWhile isPySpace
        = (u ++ ['\n']) ++ (v ++ cs.dropWhile isPySpace) by simp]
      rw [show j + 1 = (u ++ ['\n']).length by simp [hulen]]
      exact List.drop_left ..
    refine ⟨v, cs.dropWhile isPySpace, by rw [← h, hdrop], ?_, ?_⟩
    · intro c hc
      have hmem : c ∈ cs.takeWhile isPySpace := by rw [hrun]; simp [hc]
      exact ⟨List.mem_takeWhile_imp hmem, fun he => hv (he ▸ hc)⟩
    · cases hd : cs.dropWhile isPySpace with
      | nil => exact Or.inl rfl
      | cons x xs => exact Or.inr ⟨x, xs, rfl, dropWhile_head_not hd⟩

theorem paraSplit_middle_nonws :
    ∀ (n : Nat) (l : List Char), l.length ≤ n → PostSep l →
      ∀ q ∈ (paraSplit l).dropLast, ∃ c ∈ q, isPySpace c = false := by
  intro n
  induction n with
  | zero =>
    intro l hn _ q hq
    have : l = [] := List.eq_nil_of_length_eq_zero (Nat.le_zero.mp hn)
    subst this
    rw [show (paraSplit []).dropLast = [] from rfl] at hq
    cases hq
  | succ m ih =>
    intro l hn hps q hq
    rw [paraSplit_eq] at hq
    cases hm : findSep l with
    | none =>
      rw [hm] at hq
      rw [show ([l] : List (List Char)).dropLast = [] from rfl] at hq
      cases hq
    | some pr =>
      obtain ⟨pre, rest⟩ := pr
      rw [hm] at hq
      rw [List.dropLast_cons_of_ne_nil (paraSplit_ne_nil rest)] at hq
      obtain ⟨w, r, rfl, hw, hr⟩ := hps
      rcases List.mem_cons.mp hq with h1 | h1
      · subst h1
        rcases hr with rfl | ⟨hd, t2, rfl, hdws⟩
        · rw [List.append_nil] at hm
          have : findSep w = none := by
            apply findSep_none_of_no_nl
            intro hmem
            exact (hw '\n' hmem).2 rfl
          rw [this] at hm
          cases hm
        · have hwnl : '\n' ∉ w := fun hmem => (hw '\n' hmem).2 rfl
          have hdnl : ¬ hd = '\n' := by
            intro he
            rw [he] at hdws
            cases hdws
          cases hf2 : findSep (hd :: t2) with
          | none =>
            rw [findSep_append_none hwnl hf2] at hm
            cases hm
          | some pr2 =>
            obtain ⟨u2, v2⟩ := pr2
            rw [findSep_append_some hwnl hf2] at hm
            injection hm with hm
            have hpre : q = w ++ u2 := (congrArg Prod.fst hm).symm
            have hu2 : ∃ u3, u2 = hd :: u3 := by
              simp only [findSep] at hf2
              rw [if_neg hdnl] at hf2
              cases hf3 : findSep t2 with
              | some pr3 =>
                obtain ⟨u3, v3⟩ := pr3
                rw [hf3] at hf2
                injection hf2 with hf2
                exact ⟨u3, (congrArg Prod.fst hf2).symm⟩
              | none => rw [hf3] at hf2; cases hf2
            obtain ⟨u3, rfl⟩ := hu2
            exact ⟨hd, by simp [hpre], hdws⟩
      · obtain ⟨mid, heq, hst⟩ := findSep_decomp hm
        have hlen := findSep_shorter hm
        exact ih rest (by omega) (sepTail_postSep hst) q h1

theorem paraSplit_tail_middle_nonws (l : List Char) :
    ∀ q ∈ ((paraSplit l).tail).dropLast, ∃ c ∈ q, isPySpace c = false := by
  rw [paraSplit_eq]
  cases hm : findSep l with
  | none =>
    intro q hq
    cases hq
  | some pr =>
    obtain ⟨pre, rest⟩ := pr
    intro q hq
    obtain ⟨mid, heq, hst⟩ := findSep_decomp hm
    exact paraSplit_middle_nonws rest.length rest le_rfl
      (sepTail_postSep hst) q hq

theorem paraSplit_joinWith :
    ∀ ps : List (List Char), ps ≠ [] → (∀ p ∈ ps, '\n' ∉ p) →
      (∀ p ∈ ps.tail, ∃ h t2, p = h :: t2 ∧ isPySpace h = false) →
      paraSplit (joinWith ['\n', '\n'] ps) = ps := by
  intro ps
  induction ps with
  | nil => intro h; exact absurd rfl h
  | cons p ps' ih =>
    intro _ hnl htl
    cases ps' with
    | nil =>
      show paraSplit p = [p]
      rw [paraSplit_eq, findSep_none_of_no_nl (hnl p (by simp))]
    | cons q ps'' =>
      obtain ⟨hq, tq, rfl, hqws⟩ := htl q (by simp)
      obtain ⟨J2, hJ⟩ : ∃ J2, joinWith ['\n', '\n'] ((hq :: tq) :: ps'')
          = hq :: J2 := by
        cases ps'' with
        | nil => exact ⟨tq, rfl⟩
        | cons r rs =>
          rw [joinWith_cons_of_ne_nil _ _ (by simp)]
          exact ⟨tq ++ ['\n', '\n'] ++ joinWith ['\n', '\n'] (r :: rs),
            by simp⟩
      rw [joinWith_cons_of_ne_nil _ _ (by simp), hJ]
      have hsep : findSep ('\n' :: '\n' :: hq :: J2) = some ([], hq :: J2) := by
        have hst : sepTail ('\n' :: hq :: J2) = some (hq :: J2) := by
          unfold sepTail
          rw [show List.takeWhile isPySpace ('\n' :: hq :: J2)
            = '\n' :: List.takeWhile isPySpace (hq :: J2) from
              List.takeWhile_cons_of_pos (by decide),
            List.takeWhile_cons_of_neg (by rw [hqws]; exact Bool.false_ne_true)]
          rfl
        show findSep ('\n' :: ('\n' :: hq :: J2)) = some ([], hq :: J2)
        simp only [findSep]
        rw [if_pos trivial, hst]
      have hfind : findSep (p ++ '\n' :: '\n' :: hq :: J2)
          = some (p, hq :: J2) := by
        have := findSep_append_some (hnl p (by simp)) hsep
        simpa using this
      rw [show p ++ ['\n', '\n'] ++ hq :: J2 = p ++ '\n' :: '\n' :: hq :: J2
        by simp]
      rw [paraSplit_eq, hfind]
      show p :: paraSplit (hq :: J2) = p :: (hq :: tq) :: ps''
      rw [← hJ, ih (by simp) (fun x hx => hnl x (List.mem_cons_of_mem p hx))
        (fun x hx => htl x (List.mem_cons_of_mem (hq :: tq) hx))]

theorem split_nl :
    ∀ (p : List Char), '\n' ∉ p → ∀ (m x y : List Char),
      p ++ '\n' :: m = x ++ '\n' :: y →
      (x = p ∧ y = m) ∨
        ∃ x2, x = p ++ '\n' :: x2 ∧ x2 ++ '\n' :: y = m := by
  intro p
  induction p with
  | nil =>
    intro _ m x y h
    rw [List.nil_append] at h
    cases x with
    | nil =>
      injection h with _ h2
      exact Or.inl ⟨rfl, h2.symm⟩
    | cons x0 x' =>
      rw [List.cons_append] at h
      injection h with h1 h2
      refine Or.inr ⟨x', ?_, h2.symm⟩
      rw [List.nil_append, ← h1]
  | cons a p' ih =>
    intro hnl m x y h
    cases x with
    | nil =>
      simp only [List.cons_append, List.nil_append] at h
      injection h with h1 _
      exact absurd (by rw [h1]; exact List.mem_cons_self '\n' p') hnl
    | cons b x' =>
      simp only [List.cons_append] at h
      injection h with h1 h2
      have hnl' : '\n' ∉ p' := fun hm => hnl (by simp [hm])
      rcases ih hnl' m x' y h2 with ⟨rfl, rfl⟩ | ⟨x2, rfl, hm⟩
      · exact Or.inl ⟨by rw [h1], rfl⟩
      · exact Or.inr ⟨x2, by rw [h1]; rfl, hm⟩

theorem nl_in_joinWith :
    ∀ ps : List (List Char), (∀ p ∈ ps, '\n' ∉ p) → ∀ x y : List Char,
      joinWith ['\n', '\n'] ps = x ++ '\n' :: y →
      (∃ x2, x = x2 ++ ['\n']) ∨ (∃ y2, y = '\n' :: y2) := by
  intro ps
  induction ps with
  | nil =>
    intro _ x y h
    exact absurd h.symm (by simp [joinWith])
  | cons p ps' ih =>
    intro hnl x y h
    cases ps' with
    | nil =>
      exfalso
      apply hnl p (by simp)
      rw [show (joinWith ['\n', '\n'] [p]) = p from rfl] at h
      rw [h]
      simp
    | cons q ps'' =>
      rw [joinWith_cons_of_ne_nil _ _ (by simp)] at h
      rw [show p ++ ['\n', '\n'] ++ joinWith ['\n', '\n'] (q :: ps'')
        = p ++ '\n' :: ('\n' :: joinWith ['\n', '\n'] (q :: ps'')) by simp] at h
      rcases split_nl p (hnl p (by simp)) _ x y h with ⟨rfl, rfl⟩ |
        ⟨x2, rfl, hm⟩
      · exact Or.inr ⟨joinWith ['\n', '\n'] (q :: ps''), rfl⟩
      · cases x2 with
        | nil => exact Or.inl ⟨p, by simp⟩
        | cons c0 x2' =>
          injection hm with h1 h2
          rcases ih (fun r hr => hnl r (by simp [hr])) x2' y h2.symm with
            ⟨x3, rfl⟩ | hy
          · exact Or.inl ⟨p ++ '\n' :: '\n' :: x3, by rw [h1]; simp⟩
          · exact Or.inr hy

theorem hyphenWindow_true {a : Char} {rest : List Char}
    (h : hyphenWindow a rest = true) :
    ∃ d v, rest = '-' :: '\n' :: d :: v ∧ isW a = true ∧ isW d = true := by
  match rest, h with
  | b :: c :: d :: v, h =>
    simp only [hyphenWindow, Bool.and_eq_true, decide_eq_true_eq] at h
    obtain ⟨⟨⟨ha, hb⟩, hc⟩, hd⟩ := h
    subst hb; subst hc
    exact ⟨d, v, rfl, ha, hd⟩

theorem hasHyphenBreak_decomp :
    ∀ {l : List Char}, hasHyphenBreak l = true →
      ∃ u a d v, l = u ++ a :: '-' :: '\n' :: d :: v ∧
        isW a = true ∧ isW d = true := by
  intro l
  induction l with
  | nil => intro h; cases h
  | cons c rest ih =>
    intro h
    rw [hasHyphenBreak, Bool.or_eq_true] at h
    rcases h with h | h
    · obtain ⟨d, v, rfl, ha, hd⟩ := hyphenWindow_true h
      exact ⟨[], c, d, v, rfl, ha, hd⟩
    · obtain ⟨u, a, d, v, rfl, ha, hd⟩ := ih h
      exact ⟨c :: u, a, d, v, rfl, ha, hd⟩

theorem hasHyphenBreak_joinWith_false {ps : List (List Char)}
    (hnl : ∀ p ∈ ps, '\n' ∉ p) :
    hasHyphenBreak (joinWith ['\n', '\n'] ps) = false := by
  cases h : hasHyphenBreak (joinWith ['\n', '\n'] ps)
  · rfl
  exfalso
  obtain ⟨u, a, d, v, heq, _, hd⟩ := hasHyphenBreak_decomp h
  have heq2 : joinWith ['\n', '\n'] ps = (u ++ [a, '-']) ++ '\n' :: (d :: v) := by
    rw [heq]; simp
  rcases nl_in_joinWith ps hnl _ _ heq2 with ⟨x2, hx⟩ | ⟨y2, hy⟩
  · have h1 : (u ++ [a, '-']).getLast? = some '-' := by
      rw [show u ++ [a, '-'] = (u ++ [a]) ++ ['-'] by simp]
      exact List.getLast?_concat _
    rw [hx, List.getLast?_concat] at h1
    injection h1 with h1
    cases h1
  · injection hy with hy _
    rw [hy] at hd
    cases hd

theorem hasAdj_false_of_all_p {p q : Char → Bool} :
    ∀ l : List Char, (∀ s ∈ l, p s = false) → hasAdj p q l = false := by
  intro l
  induction l with
  | nil => intro _; rfl
  | cons c rest ih =>
    intro h
    have hw : adjWindow p q c rest = false := by
      cases rest with
      | nil => rfl
      | cons d rest' =>
        rw [show adjWindow p q c (d :: rest') = (p c && q d) from rfl,
          h c (by simp), Bool.false_and]
    rw [hasAdj_cons, hw, Bool.false_or]
    exact ih (fun s hs => h s (List.mem_cons_of_mem c hs))

theorem hasAdj_joinWith_false {p q : Char → Bool} {sep : List Char}
    (hsepne : sep ≠ []) (hsp : ∀ s ∈ sep, p s = false)
    (hsq : ∀ s ∈ sep, q s = false) :
    ∀ ps : List (List Char), (∀ x ∈ ps, hasAdj p q x = false) →
      hasAdj p q (joinWith sep ps) = false := by
  intro ps
  induction ps with
  | nil => intro _; rfl
  | cons x xs ih =>
    intro hps
    cases xs with
    | nil => exact hps x (by simp)
    | cons y ys =>
      rw [joinWith_cons_of_ne_nil _ _ (by simp), List.append_assoc]
      cases hres : hasAdj p q (x ++ (sep ++ joinWith sep (y :: ys)))
      · rfl
      exfalso
      rcases (hasAdj_append ..).mp hres with h1 | h1 | ⟨a, b, ha, hb, hpa, hqb⟩
      · rw [hps x (by simp)] at h1; cases h1
      · rcases (hasAdj_append ..).mp h1 with h2 | h2 | ⟨a, b, ha, hb, hpa, hqb⟩
        · rw [hasAdj_false_of_all_p sep hsp] at h2
          cases h2
        · rw [ih (fun z hz => hps z (by simp [hz]))] at h2
          cases h2
        · -- junction between separator and the rest
          have hmem : a ∈ sep := by
            have ha' : sep.reverse.head? = some a := by
              rw [List.head?_reverse]; exact ha
            cases hrev : sep.reverse with
            | nil => rw [hrev] at ha'; cases ha'
            | cons s1 sep' =>
              rw [hrev] at ha'
              injection ha' with ha'
              have hms : a ∈ sep.reverse := by rw [hrev, ha']; simp
              simpa using hms
          rw [hsp a hmem] at hpa
          cases hpa
      · -- junction between x and the separator
        obtain ⟨s1, sep', rfl⟩ : ∃ s1 sep', sep = s1 :: sep' := by
          cases sep with
          | nil => exact absurd rfl hsepne
          | cons s1 sep' => exact ⟨s1, sep', rfl⟩
        rw [show ((s1 :: sep') ++ joinWith (s1 :: sep') (y :: ys)).head?
          = some s1 from rfl] at hb
        injection hb with hb
        rw [← hb, hsq s1 (by simp)] at hqb
        cases hqb

theorem splitlinesGo_cons_crlf (acc rest : List Char) :
    splitlinesGo acc ('\r' :: '\n' :: rest)
      = acc.reverse :: splitlinesGo [] rest := rfl

set_option maxHeartbeats 1000000 in
theorem splitlinesGo_cons_ne_cr (acc : List Char) (c : Char) (rest : List Char)
    (hc : c ≠ '\r') :
    splitlinesGo acc (c :: rest) =
      if isLineBoundary c then acc.reverse :: splitlinesGo [] rest
      else splitlinesGo (c :: acc) rest := by
  rw [splitlinesGo.eq_def]
  split
  · rename_i heq
    injection heq
  · rename_i heq
    injection heq with h1 _
    exact absurd h1 hc
  · rename_i heq
    injection heq with h1 h2
    subst h1; subst h2
    rfl

set_option maxHeartbeats 1000000 in
theorem splitlinesGo_cons_cr_ne (acc : List Char) (d : Char) (rest : List Char)
    (hd : d ≠ '\n') :
    splitlinesGo acc ('\r' :: d :: rest) =
      acc.reverse :: splitlinesGo [] (d :: rest) := by
  rw [splitlinesGo.eq_def]
  split
  · rename_i heq
    injection heq
  · rename_i heq
    injection heq with _ h2
    injection h2 with h2 _
    exact absurd h2 hd
  · rename_i heq
    injection heq with h1 h2
    subst h1
    rw [← h2, if_pos (by decide)]

theorem splitlinesGo_cons_clean (acc : List Char) (c : Char) (rest : List Char)
    (hc : isLineBoundary c = false) :
    splitlinesGo acc (c :: rest) = splitlinesGo (c :: acc) rest := by
  rw [splitlinesGo_cons_ne_cr acc c rest (by intro h; subst h; cases hc),
    if_neg (by simp [hc])]

theorem splitlinesGo_clean :
    ∀ (l acc : List Char), (∀ ch ∈ l, isLineBoundary ch = false) →
      splitlinesGo acc l =
        if acc.reverse ++ l = [] then [] else [acc.reverse ++ l] := by
  intro l
  induction l with
  | nil =>
    intro acc _
    show (if acc = [] then [] else [acc.reverse]) = _
    by_cases h : acc = []
    · rw [if_pos h, if_pos (by rw [h]; rfl)]
    · rw [if_neg h, if_neg (by simp [h]), List.append_nil]
  | cons c rest ih =>
    intro acc hcl
    rw [splitlinesGo_cons_clean acc c rest (hcl c (by simp)),
      ih (c :: acc) (fun ch hch => hcl ch (by simp [hch]))]
    rw [if_neg (by simp), if_neg (by simp)]
    congr 1
    simp

theorem splitlinesGo_clean_append (rest : List Char) :
    ∀ (u : List Char), (∀ ch ∈ u, isLineBoundary ch = false) →
      ∀ acc : List Char, splitlinesGo acc (u ++ '\n' :: rest) =
        (acc.reverse ++ u) :: splitlinesGo [] rest := by
  intro u
  induction u with
  | nil =>
    intro _ acc
    rw [List.nil_append,
      splitlinesGo_cons_ne_cr acc '\n' rest (by decide), if_pos (by decide),
      List.append_nil]
  | cons c u' ih =>
    intro hu acc
    rw [List.cons_append, splitlinesGo_cons_clean _ _ _ (hu c (by simp)),
      ih (fun ch hch => hu ch (by simp [hch])) (c :: acc)]
    congr 1
    simp

theorem pySplitlines_clean (u : List Char) (hne : u ≠ [])
    (hu : ∀ ch ∈ u, isLineBoundary ch = false) :
    pySplitlines u = [u] := by
  unfold pySplitlines
  rw [splitlinesGo_clean u [] hu, if_neg (by simpa using hne)]
  rfl

theorem pySplitlines_append_nl (u rest : List Char)
    (hu : ∀ ch ∈ u, isLineBoundary ch = false) :
    pySplitlines (u ++ '\n' :: rest) = u :: pySplitlines rest := by
  unfold pySplitlines
  rw [splitlinesGo_clean_append rest u hu []]
  rfl

theorem mem_splitlinesGo_no_boundary :
    ∀ (n : Nat) (l : List Char), l.length ≤ n → ∀ acc : List Char,
      (∀ ch ∈ acc, isLineBoundary ch = false) →
      ∀ line ∈ splitlinesGo acc l, ∀ ch ∈ line, isLineBoundary ch = false := by
  intro n
  induction n with
  | zero =>
    intro l hlen acc hacc line hline
    have hl : l = [] := List.length_eq_zero.mp (Nat.le_zero.mp hlen)
    subst hl
    by_cases ha : acc = []
    · rw [show splitlinesGo acc [] = if acc = [] then [] else [acc.reverse]
        from rfl, if_pos ha] at hline
      cases hline
    · rw [show splitlinesGo acc [] = if acc = [] then [] else [acc.reverse]
        from rfl, if_neg ha] at hline
      rw [List.mem_singleton] at hline
      subst hline
      intro ch hch
      exact hacc ch (List.mem_reverse.mp hch)
  | succ n ihn =>
    intro l hlen acc hacc line hline
    cases l with
    | nil =>
      by_cases ha : acc = []
      · rw [show splitlinesGo acc [] = if acc = [] then [] else [acc.reverse]
          from rfl, if_pos ha] at hline
        cases hline
      · rw [show splitlinesGo acc [] = if acc = [] then [] else [acc.reverse]
          from rfl, if_neg ha] at hline
        rw [List.mem_singleton] at hline
        subst hline
        intro ch hch
        exact hacc ch (List.mem_reverse.mp hch)
    | cons c rest =>
      have hrest : rest.length ≤ n := by
        simp only [List.length_cons] at hlen
        omega
      by_cases hcr : c = '\r'
      · subst hcr
        cases rest with
        | nil =>
          rw [show splitlinesGo acc ['\r']
            = acc.reverse :: splitlinesGo [] [] from rfl] at hline
          rcases List.mem_cons.mp hline with rfl | h
          · intro ch hch
            exact hacc ch (List.mem_reverse.mp hch)
          · rw [show splitlinesGo ([] : List Char) [] = [] from rfl] at h
            cases h
        | cons d rest2 =>
          by_cases hdn : d = '\n'
          · subst hdn
            rw [splitlinesGo_cons_crlf] at hline
            rcases List.mem_cons.mp hline with rfl | h
            · intro ch hch
              exact hacc ch (List.mem_reverse.mp hch)
            · exact ihn rest2 (by simp only [List.length_cons] at hlen; omega)
                [] (fun ch hch => absurd hch (List.not_mem_nil ch)) line h
          · rw [splitlinesGo_cons_cr_ne acc d rest2 hdn] at hline
            rcases List.mem_cons.mp hline with rfl | h
            · intro ch hch
              exact hacc ch (List.mem_reverse.mp hch)
            · exact ihn (d :: rest2) hrest []
                (fun ch hch => absurd hch (List.not_mem_nil ch)) line h
      · rw [splitlinesGo_cons_ne_cr acc c rest hcr] at hline
        by_cases hb : isLineBoundary c = true
        · rw [if_pos hb] at hline
          rcases List.mem_cons.mp hline with rfl | h
          · intro ch hch
            exact hacc ch (List.mem_reverse.mp hch)
          · exact ihn rest hrest []
              (fun ch hch => absurd hch (List.not_mem_nil ch)) line h
        · rw [if_neg hb] at hline
          refine ihn rest hrest (c :: acc) ?_ line hline
          intro ch hch
          rcases List.mem_cons.mp hch with rfl | h
          · exact Bool.eq_false_iff.mpr hb
          · exact hacc ch h

theorem mem_pySplitlines_no_boundary {l line : List Char}
    (h : line ∈ pySplitlines l) : ∀ ch ∈ line, isLineBoundary ch = false :=
  mem_splitlinesGo_no_boundary l.length l le_rfl []
    (fun ch hch => absurd hch (List.not_mem_nil ch)) line h

/-- Interleaving of paragraph lines with the empty lines produced by the
blank separators, as `str.splitlines` sees a `"\n\n"`-joined text. -/

theorem pySplitlines_joinWith :
    ∀ ps : List (List Char), (∀ p ∈ ps, ∀ ch ∈ p, isLineBoundary ch = false) →
      (∀ q, ps.getLast? = some q → q ≠ []) →
      pySplitlines (joinWith ['\n', '\n'] ps) = sepLines ps := by
  intro ps
  induction ps with
  | nil => intro _ _; rfl
  | cons p ps' ih =>
    intro hcl hlast
    cases ps' with
    | nil =>
      show pySplitlines p = [p]
      exact pySplitlines_clean p (hlast p rfl) (hcl p (by simp))
    | cons q ps'' =>
      rw [joinWith_cons_of_ne_nil _ _ (by simp)]
      rw [show p ++ ['\n', '\n'] ++ joinWith ['\n', '\n'] (q :: ps'')
        = p ++ '\n' :: ([] ++ '\n' :: joinWith ['\n', '\n'] (q :: ps''))
        by simp]
      rw [pySplitlines_append_nl _ _ (hcl p (by simp)),
        pySplitlines_append_nl [] _ (fun ch hch => absurd hch
          (List.not_mem_nil ch))]
      rw [ih (fun r hr => hcl r (by simp [hr]))
        (fun r hr => hlast r (by rw [List.getLast?_cons_cons]; exact hr))]
      rfl

theorem joinWith_nl_sepLines :
    ∀ ps : List (List Char),
      joinWith ['\n'] (sepLines ps) = joinWith ['\n', '\n'] ps := by
  intro ps
  induction ps with
  | nil => rfl
  | cons p ps' ih =>
    cases ps' with
    | nil => rfl
    | cons q ps'' =>
      have hS : sepLines (q :: ps'') ≠ [] := by
        cases ps'' <;> exact fun h => List.noConfusion h
      show joinWith ['\n'] (p :: [] :: sepLines (q :: ps''))
        = joinWith ['\n', '\n'] (p :: q :: ps'')
      rw [joinWith_cons_of_ne_nil _ _ (by simp),
        joinWith_cons_of_ne_nil _ _ hS,
        joinWith_cons_of_ne_nil _ _ (by simp), ih]
      simp

theorem removePageHeaders_id_of_clean {ps : List (List Char)}
    (hcl : ∀ p ∈ ps, ∀ ch ∈ p, isLineBoundary ch = false)
    (hlast : ∀ q, ps.getLast? = some q → q ≠ [])
    (h1 : ∀ line ∈ pySplitlines (joinWith ['\n', '\n'] ps),
      headerMatch line = false) :
    removePageHeadersL (joinWith ['\n', '\n'] ps)
      = joinWith ['\n', '\n'] ps := by
  unfold removePageHeadersL
  rw [pySplitlines_joinWith ps hcl hlast] at h1 ⊢
  rw [List.filter_eq_self.mpr (fun line hline => by rw [h1 line hline]; rfl)]
  exact joinWith_nl_sepLines ps

theorem endsWithBlankPara_concat_nn (w : List Char) :
    endsWithBlankPara (w ++ ['\n', '\n']) = true := by
  unfold endsWithBlankPara
  rw [List.reverse_append]
  rfl

theorem endsWithBlankPara_of_last_nil {ps : List (List Char)} {x : List Char}
    {xs : List (List Char)} (h : ps = (x :: xs) ++ [[]]) :
    endsWithBlankPara (joinWith ['\n', '\n'] ps) = true := by
  rw [h, joinWith_append_last _ _ (by simp), List.append_nil]
  exact endsWithBlankPara_concat_nn _

theorem mem_replaceNl {c : Char} {l : List Char} (h : c ∈ replaceNl l) :
    c = ' ' ∨ (c ∈ l ∧ c ≠ '\n') := by
  obtain ⟨d, hd, hdc⟩ := List.mem_map.mp h
  by_cases he : d = '\n'
  · rw [if_pos he] at hdc
    exact Or.inl hdc.symm
  · rw [if_neg he] at hdc
    exact Or.inr ⟨hdc ▸ hd, hdc ▸ he⟩

theorem replaceNl_id_of_no_nl {l : List Char} (h : '\n' ∉ l) :
    replaceNl l = l := by
  induction l with
  | nil => rfl
  | cons c rest ih =>
    show (if c = '\n' then ' ' else c) :: replaceNl rest = c :: rest
    rw [if_neg (fun hc => h (by rw [← hc]; exact List.mem_cons_self c rest)),
      ih (fun hm => h (List.mem_cons_of_mem c hm))]

theorem isDot_replaceNl_char (c : Char) :
    isDot (if c = '\n' then ' ' else c) = isDot c := by
  by_cases h : c = '\n'
  · rw [if_pos h, h]; decide
  · rw [if_neg h]

theorem isUpperAZ_replaceNl_char (c : Char) :
    isUpperAZ (if c = '\n' then ' ' else c) = isUpperAZ c := by
  by_cases h : c = '\n'
  · rw [if_pos h, h]; decide
  · rw [if_neg h]

theorem isLowerAZ_replaceNl_char (c : Char) :
    isLowerAZ (if c = '\n' then ' ' else c) = isLowerAZ c := by
  by_cases h : c = '\n'
  · rw [if_pos h, h]; decide
  · rw [if_neg h]

theorem cleanParas_no_nl {l : List Char} :
    ∀ p ∈ cleanParasL l, '\n' ∉ p := by
  intro p hp
  obtain ⟨q, _, rfl⟩ := List.mem_map.mp hp
  exact not_nl_mem_cleanPara

theorem cleanPara_strip {l : List Char} :
    ∀ p ∈ cleanParasL l, pyStrip p = p := by
  intro p hp
  obtain ⟨q, _, rfl⟩ := List.mem_map.mp hp
  exact pyStrip_cleanPara _

theorem cleanPara_no_lowerUpper {l : List Char} :
    ∀ p ∈ cleanParasL l, hasAdj isLowerAZ isUpperAZ p = false := by
  intro p hp
  obtain ⟨q, _, rfl⟩ := List.mem_map.mp hp
  exact lowerUpperFix_no_adj _

theorem cleanPara_no_dotUpper {l : List Char} :
    ∀ p ∈ cleanParasL l, hasAdj isDot isUpperAZ p = false := by
  intro p hp
  obtain ⟨q, hq, rfl⟩ := List.mem_map.mp hp
  obtain ⟨u, v, huv⟩ := mem_paraSplit_infix _ _ le_rfl q hq
  have h0 : hasAdj isDot isUpperAZ q = false :=
    hasAdj_infix (by rw [← huv]; exact periodFix_no_adj _)
  have h1 : hasAdj isDot isUpperAZ (replaceNl q) = false := by
    rw [show replaceNl q = q.map (fun c => if c = '\n' then ' ' else c)
      from rfl,
      hasAdj_map _ _ _ isDot_replaceNl_char isUpperAZ_replaceNl_char]
    exact h0
  obtain ⟨u2, v2, huv2⟩ := pyStrip_infix (replaceNl q)
  have h2 : hasAdj isDot isUpperAZ (pyStrip (replaceNl q)) = false :=
    hasAdj_infix (by rw [← huv2]; exact h1)
  exact lowerUpperFix_preserves_no_adj (by decide) (by decide) h2

theorem cleanPara_no_boundary {l : List Char} :
    ∀ p ∈ cleanParasL l, ∀ ch ∈ p, isLineBoundary ch = false := by
  intro p hp ch hch
  obtain ⟨q, hq, rfl⟩ := List.mem_map.mp hp
  rcases mem_lowerUpperFix hch with h1 | rfl
  case inr => decide
  have h2 := mem_pyStrip h1
  rcases mem_replaceNl h2 with rfl | ⟨h3, hne⟩
  case inl => decide
  -- ch is a character of the paragraph piece, and is not a line feed
  obtain ⟨u, v, huv⟩ := mem_paraSplit_infix _ _ le_rfl q hq
  have h4 : ch ∈ periodFix (hyphenScan (removePageHeadersL l)) := by
    rw [huv]
    simp [h3]
  rcases mem_periodFix h4 with h5 | rfl
  case inr => decide
  have h6 := mem_hyphenScan _ _ le_rfl ch h5
  rcases mem_joinWith h6 with h7 | ⟨line, hline, hchline⟩
  · rw [List.mem_singleton] at h7
    exact absurd h7 hne
  · exact mem_pySplitlines_no_boundary (List.mem_of_mem_filter hline) ch hchline

theorem cleanPara_head_nonws {q : List Char}
    (hne : lowerUpperFix (pyStrip (replaceNl q)) ≠ []) :
    ∃ h t2, lowerUpperFix (pyStrip (replaceNl q)) = h :: t2 ∧
      isPySpace h = false := by
  cases hp : lowerUpperFix (pyStrip (replaceNl q)) with
  | nil => exact absurd hp hne
  | cons h t2 =>
    refine ⟨h, t2, rfl, ?_⟩
    have hh : (pyStrip (replaceNl q)).head? = some h := by
      rw [← pairScan_head luStartsMatch (pyStrip (replaceNl q))]
      rw [show lowerUpperFix (pyStrip (replaceNl q))
        = pairScan luStartsMatch (pyStrip (replaceNl q)) from rfl] at hp
      rw [hp]
      rfl
    exact pyStrip_head_not_ws hh

theorem cleanParas_tail_heads {l : List Char}
    (h2 : endsWithBlankPara (joinWith ['\n', '\n'] (cleanParasL l)) = false) :
    ∀ p ∈ (cleanParasL l).tail,
      ∃ h t2, p = h :: t2 ∧ isPySpace h = false := by
  intro p hp
  cases hS : paraSplit (periodFix (hyphenScan (removePageHeadersL l))) with
  | nil => exact absurd hS (paraSplit_ne_nil _)
  | cons s0 S' =>
    have hps : cleanParasL l
        = (s0 :: S').map (fun r => lowerUpperFix (pyStrip (replaceNl r))) := by
      unfold cleanParasL
      rw [hS]
    rw [hps, List.map_cons] at hp
    have hp' : p ∈ S'.map (fun r => lowerUpperFix (pyStrip (replaceNl r))) :=
      hp
    obtain ⟨q, hq, rfl⟩ := List.mem_map.mp hp'
    cases hS' : S' with
    | nil => rw [hS'] at hq; cases hq
    | cons s1 S'' =>
      subst hS'
      have hSne : (s1 :: S'') ≠ [] := by simp
      have hq2 : q ∈ (s1 :: S'').dropLast ++ [(s1 :: S'').getLast hSne] := by
        rw [List.dropLast_append_getLast hSne]
        exact hq
      rcases List.mem_append.mp hq2 with hmid | hlast
      · -- q is a middle piece: it contains a non-whitespace character
        obtain ⟨c0, hc0, hws⟩ := paraSplit_tail_middle_nonws
          (periodFix (hyphenScan (removePageHeadersL l)))
          q (by rw [hS]; exact hmid)
        have hmem2 : c0 ∈ replaceNl q := List.mem_map.mpr ⟨c0, hc0, by
          rw [if_neg (fun hcn => by
            rw [hcn] at hws; exact absurd hws (by decide))]⟩
        exact cleanPara_head_nonws
          (pairScan_ne_nil (pyStrip_ne_nil_of_mem hmem2 hws))
      · -- q is the final piece: nonempty, else the text ends with a blank
        rw [List.mem_singleton] at hlast
        by_cases hgq : lowerUpperFix (pyStrip (replaceNl q)) = []
        · exfalso
          have hS'dec : s1 :: S'' = (s1 :: S'').dropLast ++ [q] := by
            rw [hlast]
            exact (List.dropLast_append_getLast hSne).symm
          have hcp : cleanParasL l =
              (lowerUpperFix (pyStrip (replaceNl s0)) ::
                ((s1 :: S'').dropLast).map
                  (fun r => lowerUpperFix (pyStrip (replaceNl r)))) ++
                [[]] := by
            rw [hps, List.map_cons]
            conv_lhs => rw [hS'dec]
            rw [List.map_append,
              show ([q].map (fun r => lowerUpperFix (pyStrip (replaceNl r))))
                = [[]] by rw [List.map_singleton, hgq]]
            simp
          rw [endsWithBlankPara_of_last_nil hcp] at h2
          cases h2
        · exact cleanPara_head_nonws hgq

theorem cleanParasL_eq_of_fix {c : List Char}
    (hH : removePageHeadersL c = c) (hHy : hyphenScan c = c)
    (hPF : periodFix c = c) :
    cleanParasL c
      = (paraSplit c).map (fun r => lowerUpperFix (pyStrip (replaceNl r))) := by
  unfold cleanParasL
  rw [hH, hHy, hPF]

theorem cleanL_idem_core (wn wn2 : Option Wordninja) (l : List Char)
    (h1 : ∀ line ∈ pySplitlines (cleanL false wn l), headerMatch line = false)
    (h2 : endsWithBlankPara (cleanL false wn l) = false) :
    cleanL false wn2 (cleanL false wn l) = cleanL false wn l := by
  have hcl : cleanL false wn l = joinWith ['\n', '\n'] (cleanParasL l) := rfl
  by_cases hnil : cleanL false wn l = []
  · rw [hnil]
    rfl
  · have hne : cleanParasL l ≠ [] := by
      intro h
      unfold cleanParasL at h
      exact paraSplit_ne_nil _ (List.map_eq_nil_iff.mp h)
    have hlast : ∀ q0, (cleanParasL l).getLast? = some q0 → q0 ≠ [] := by
      intro q0 hq0 hq0nil
      subst hq0nil
      rw [List.getLast?_eq_getLast _ hne] at hq0
      injection hq0 with hgl
      have hdec : cleanParasL l = (cleanParasL l).dropLast ++ [[]] := by
        conv_lhs => rw [← List.dropLast_append_getLast hne]
        rw [hgl]
      cases hdl : (cleanParasL l).dropLast with
      | nil =>
        rw [hdl] at hdec
        exact hnil (by rw [hcl, hdec]; rfl)
      | cons d ds =>
        rw [hdl] at hdec
        rw [hcl, endsWithBlankPara_of_last_nil hdec] at h2
        cases h2
    have h1' : ∀ line ∈ pySplitlines (joinWith ['\n', '\n'] (cleanParasL l)),
        headerMatch line = false := h1
    have hH : removePageHeadersL (joinWith ['\n', '\n'] (cleanParasL l))
        = joinWith ['\n', '\n'] (cleanParasL l) :=
      removePageHeaders_id_of_clean cleanPara_no_boundary hlast h1'
    have hHy : hyphenScan (joinWith ['\n', '\n'] (cleanParasL l))
        = joinWith ['\n', '\n'] (cleanParasL l) :=
      hyphenScan_id_of_no_break _
        (hasHyphenBreak_joinWith_false cleanParas_no_nl)
    have hPF : periodFix (joinWith ['\n', '\n'] (cleanParasL l))
        = joinWith ['\n', '\n'] (cleanParasL l) :=
      periodFix_id_of_no_adj
        (hasAdj_joinWith_false (by simp) (by decide) (by decide)
          (cleanParasL l) cleanPara_no_dotUpper)
    have hPS : paraSplit (joinWith ['\n', '\n'] (cleanParasL l))
        = cleanParasL l :=
      paraSplit_joinWith _ hne cleanParas_no_nl
        (cleanParas_tail_heads (hcl ▸ h2))
    have hmap : (cleanParasL l).map
        (fun r => lowerUpperFix (pyStrip (replaceNl r))) = cleanParasL l := by
      have hfix : ∀ p ∈ cleanParasL l,
          lowerUpperFix (pyStrip (replaceNl p)) = p := by
        intro p hp
        rw [replaceNl_id_of_no_nl (cleanParas_no_nl p hp),
          cleanPara_strip p hp,
          lowerUpperFix_id_of_no_adj (cleanPara_no_lowerUpper p hp)]
      calc (cleanParasL l).map (fun r => lowerUpperFix (pyStrip (replaceNl r)))
          = (cleanParasL l).map id := List.map_congr_left hfix
        _ = cleanParasL l := List.map_id _
    have hCP : cleanParasL (joinWith ['\n', '\n'] (cleanParasL l))
        = cleanParasL l := by
      rw [cleanParasL_eq_of_fix hH hHy hPF, hPS, hmap]
    have hker : ∀ (w : Option Wordninja) (x : List Char),
        cleanL false w x = joinWith ['\n', '\n'] (cleanParasL x) :=
      fun _ _ => rfl
    rw [hker wn2, hker wn, hCP]

/-- **C5** (amended): the cleaner is idempotent on its own output provided
the word-splitting pass is disabled, no line of the cleaned text matches
the header/footer pattern, and the cleaned text does not end with a blank
paragraph (two trailing line feeds). The unamended claim is refuted by
`clean_not_idempotent`: a reflowed paragraph can itself match the header
pattern and be deleted by the second run. -/

theorem clean_idempotent_amended (wn wn2 : Option Wordninja) (t : String)
    (h1 : ∀ line ∈ pySplitlines (clean_extracted_text false wn t).data,
      headerMatch line = false)
    (h2 : endsWithBlankPara (clean_extracted_text false wn t).data = false) :
    clean_extracted_text false wn2 (clean_extracted_text false wn t)
      = clean_extracted_text false wn t :=
  congrArg String.mk (cleanL_idem_core wn wn2 t.data h1 h2)

theorem clean_idempotent_amended_witness :
    ((∀ line ∈ pySplitlines
        (clean_extracted_text false none "Intro text.\nIt reads 49/3\n2024 on.\n\nNext para").data,
      headerMatch line = false)
    ∧ endsWithBlankPara
        (clean_extracted_text false none "Intro text.\nIt reads 49/3\n2024 on.\n\nNext para").data
      = false)
    ∧ clean_extracted_text false none
        (clean_extracted_text false none "Intro text.\nIt reads 49/3\n2024 on.\n\nNext para")
      = clean_extracted_text false none "Intro text.\nIt reads 49/3\n2024 on.\n\nNext para" :=
  ⟨⟨by decide, by decide⟩,
    clean_idempotent_amended none none
      "Intro text.\nIt reads 49/3\n2024 on.\n\nNext para"
      (by decide) (by decide)⟩

end PdfApp
